import Mathlib

/-!
Verification of the mini chess engine (`mini_chess.py`).

The definitions below are a shallow embedding of the core of the program:
the board representation (`Board`), the rules engine (`Rules`) and the
heuristic move chooser (`SimpleAI`).  Coordinates are integers (Python
ints), grids are lists of lists of optional pieces (Python's
`List[List[Optional[Piece]]]`), and every fallible lookup returns an
`Option`.  A small heap model (`Heap`, an index-addressed list of boards)
makes the mutation/aliasing claims about `clone` and `move_piece`
statable: Python objects become heap cells, mutation becomes `heap_write`.
-/

/-- `Piece.color` field: `'w'` or `'b'` in the source. -/
inductive Color : Type
  | w : Color
  | b : Color
deriving DecidableEq, Repr

/-- `Piece.kind` field: `'K','Q','R','B','N','P'` in the source. -/
inductive Kind : Type
  | K : Kind
  | Q : Kind
  | R : Kind
  | B : Kind
  | N : Kind
  | P : Kind
deriving DecidableEq, Repr

/-- The `Piece` dataclass. -/
structure Piece : Type where
  color : Color
  kind : Kind
deriving DecidableEq, Repr

/-- The `Move` dataclass: start square, end square, optional promotion kind. -/
structure Move : Type where
  start : Int × Int
  stop : Int × Int
  promotion : Option Kind := none
deriving DecidableEq, Repr

/-- `PIECE_VALUES`: material value of each piece kind. -/
def piece_values : Kind → Int
  | Kind.P => 1
  | Kind.N => 3
  | Kind.B => 3
  | Kind.R => 5
  | Kind.Q => 9
  | Kind.K => 0

/-- The `Board` class: an 8x8 grid of optional pieces plus the side to move. -/
structure Board : Type where
  board : List (List (Option Piece))
  to_move : Color
deriving DecidableEq, Repr

/-- `Board.in_bounds(r, c)`: `0 <= r < ROWS and 0 <= c < COLS` with
`ROWS = COLS = 8`. -/
def inBounds (r c : Int) : Bool :=
  decide (0 ≤ r ∧ r < 8 ∧ 0 ≤ c ∧ c < 8)

/-- `Board.get(r, c)`: `None` when out of bounds, otherwise the grid entry. -/
def Board.get (bd : Board) (r c : Int) : Option Piece :=
  if inBounds r c then (bd.board.getD r.toNat []).getD c.toNat none else none

/-- `Board.set(r, c, piece)`: unconditional overwrite of the grid entry. -/
def Board.set (bd : Board) (r c : Int) (p : Option Piece) : Board :=
  { bd with board := bd.board.set r.toNat ((bd.board.getD r.toNat []).set c.toNat p) }

/-- `Board.clone()`: rebuilds the grid with fresh `Piece` values. -/
def Board.clone (bd : Board) : Board :=
  { board := bd.board.map (fun row => row.map (fun cell => cell.map (fun p => Piece.mk p.color p.kind)))
    to_move := bd.to_move }

/-- `Board.move_piece(mv)`: clear the start square, place the moved occupant
(or a fresh promoted piece) on the end square, then toggle the side to move. -/
def Board.move_piece (bd : Board) (mv : Move) : Board :=
  let piece := bd.get mv.start.1 mv.start.2
  let bd1 := bd.set mv.start.1 mv.start.2 none
  let bd2 :=
    match mv.promotion, piece with
    | some k, some p =>
        if p.kind = Kind.P then bd1.set mv.stop.1 mv.stop.2 (some (Piece.mk p.color k))
        else bd1.set mv.stop.1 mv.stop.2 piece
    | _, _ => bd1.set mv.stop.1 mv.stop.2 piece
  { bd2 with to_move := if bd2.to_move = Color.w then Color.b else Color.w }

/-- `range(ROWS)` with `ROWS = 8`, as integer row/column indices. -/
def range8 : List Int := [0, 1, 2, 3, 4, 5, 6, 7]

/-- The squares scanned by `Board.all_pieces`, in row-major order
(`for r in range(ROWS): for c in range(COLS)`). -/
def rowMajorSquares : List (Int × Int) :=
  range8.flatMap (fun r => range8.map (fun c => (r, c)))

/-- `Board.all_pieces()`: the occupied squares with their pieces, row-major. -/
def Board.all_pieces (bd : Board) : List (Int × Int × Piece) :=
  rowMajorSquares.filterMap (fun sq => (bd.get sq.1 sq.2).map (fun p => (sq.1, sq.2, p)))

/-- `Board.material()`: signed sum of piece values, white positive. -/
def Board.material (bd : Board) : Int :=
  bd.all_pieces.foldl
    (fun s t => s + (if t.2.2.color = Color.w then piece_values t.2.2.kind else -piece_values t.2.2.kind))
    0

/-- One back rank of the initial setup. -/
def backRank (c : Color) : List (Option Piece) :=
  [some ⟨c, Kind.R⟩, some ⟨c, Kind.N⟩, some ⟨c, Kind.B⟩, some ⟨c, Kind.Q⟩,
   some ⟨c, Kind.K⟩, some ⟨c, Kind.B⟩, some ⟨c, Kind.N⟩, some ⟨c, Kind.R⟩]

/-- One rank of pawns of the initial setup. -/
def pawnRank (c : Color) : List (Option Piece) :=
  List.replicate 8 (some ⟨c, Kind.P⟩)

/-- An empty rank. -/
def emptyRank : List (Option Piece) := List.replicate 8 none

/-- `Board.__init__` / `Board._setup_initial`: the standard opening layout,
black on ranks 0-1, white on ranks 6-7, white to move. -/
def Board.initial : Board :=
  { board := [backRank Color.b, pawnRank Color.b, emptyRank, emptyRank,
              emptyRank, emptyRank, pawnRank Color.w, backRank Color.w]
    to_move := Color.w }

/-- The dimension invariant Python maintains on every `Board` it builds. -/
def Board.WF (bd : Board) : Prop :=
  bd.board.length = 8 ∧ ∀ row ∈ bd.board, row.length = 8

instance (bd : Board) : Decidable bd.WF := by
  unfold Board.WF; infer_instance

/-- `Rules._maybe_promote(mv, color, dest_row)`. -/
def Rules.maybe_promote (mv : Move) (color : Color) (dest_row : Int) : Move :=
  if (color = Color.w ∧ dest_row = 0) ∨ (color = Color.b ∧ dest_row = 7) then
    { mv with promotion := some Kind.Q }
  else mv

/-- `dir_ = -1 if color == 'w' else 1`: the pawn marching direction. -/
def pawn_dir : Color → Int
  | Color.w => -1
  | Color.b => 1

/-- `start_row = 6 if color == 'w' else 1`: the pawn double-step rank. -/
def pawn_start_row : Color → Int
  | Color.w => 6
  | Color.b => 1

/-- `Rules._pawn_moves`: forward one, forward two from the home rank, and the
two diagonal captures, with promotion on the opponent's home rank. -/
def Rules.pawn_moves (bd : Board) (r c : Int) (color : Color) : List Move :=
  let d : Int := pawn_dir color
  let start_row : Int := pawn_start_row color
  let fwd : List Move :=
    if inBounds (r + d) c ∧ bd.get (r + d) c = none then
      Rules.maybe_promote ⟨(r, c), (r + d, c), none⟩ color (r + d) ::
        (if r = start_row ∧ bd.get (r + 2 * d) c = none then
          [⟨(r, c), (r + 2 * d, c), none⟩]
        else [])
    else []
  let caps : List Move :=
    [(-1 : Int), 1].flatMap (fun dc =>
      if inBounds (r + d) (c + dc) then
        match bd.get (r + d) (c + dc) with
        | some t =>
            if t.color ≠ color then
              [Rules.maybe_promote ⟨(r, c), (r + d, c + dc), none⟩ color (r + d)]
            else []
        | none => []
      else [])
  fwd ++ caps

/-- The eight knight offsets, in source order. -/
def knight_offsets : List (Int × Int) :=
  [(-2,-1),(-2,1),(-1,-2),(-1,2),(1,-2),(1,2),(2,-1),(2,1)]

/-- `Rules._knight_moves`. -/
def Rules.knight_moves (bd : Board) (r c : Int) (color : Color) : List Move :=
  knight_offsets.flatMap (fun o =>
    if inBounds (r + o.1) (c + o.2) then
      match bd.get (r + o.1) (c + o.2) with
      | none => [⟨(r, c), (r + o.1, c + o.2), none⟩]
      | some t => if t.color ≠ color then [⟨(r, c), (r + o.1, c + o.2), none⟩] else []
    else [])

/-- The while-loop of `Rules._slider_moves` for one direction: walk outward
from `pos`, collecting empty squares, stopping at the first occupied square
(collected only when enemy-occupied).  The fuel bound 8 covers every ray on
an 8x8 board. -/
def Rules.slider_walk (bd : Board) (start : Int × Int) (color : Color)
    (d : Int × Int) : Int × Int → Nat → List Move
  | _, 0 => []
  | pos, fuel + 1 =>
    if inBounds pos.1 pos.2 then
      match bd.get pos.1 pos.2 with
      | none => ⟨start, pos, none⟩ ::
          Rules.slider_walk bd start color d (pos.1 + d.1, pos.2 + d.2) fuel
      | some t => if t.color ≠ color then [⟨start, pos, none⟩] else []
    else []

/-- `Rules._slider_moves`. -/
def Rules.slider_moves (bd : Board) (r c : Int) (color : Color)
    (directions : List (Int × Int)) : List Move :=
  directions.flatMap (fun d => Rules.slider_walk bd (r, c) color d (r + d.1, c + d.2) 8)

/-- Bishop directions, in source order. -/
def diag_dirs : List (Int × Int) := [(-1,-1),(-1,1),(1,-1),(1,1)]

/-- Rook directions, in source order. -/
def orth_dirs : List (Int × Int) := [(-1,0),(1,0),(0,-1),(0,1)]

/-- The eight king offsets, in source loop order (`dr` outer, `dc` inner). -/
def king_offsets : List (Int × Int) :=
  [(-1,-1),(-1,0),(-1,1),(0,-1),(0,1),(1,-1),(1,0),(1,1)]

/-- `Rules._king_moves`.  The source condition is
`target is None or target.color == None or target.color != color`; the middle
disjunct can never hold for a constructed `Piece` (its color is `'w'` or
`'b'`), so it contributes nothing. -/
def Rules.king_moves (bd : Board) (r c : Int) (color : Color) : List Move :=
  king_offsets.flatMap (fun o =>
    if inBounds (r + o.1) (c + o.2) then
      match bd.get (r + o.1) (c + o.2) with
      | none => [⟨(r, c), (r + o.1, c + o.2), none⟩]
      | some t => if t.color ≠ color then [⟨(r, c), (r + o.1, c + o.2), none⟩] else []
    else [])

/-- `Rules._piece_moves`: dispatch on the piece kind.  The queen's literal
direction list in the source is the bishop's followed by the rook's. -/
def Rules.piece_moves (bd : Board) (r c : Int) (p : Piece) : List Move :=
  match p.kind with
  | Kind.P => Rules.pawn_moves bd r c p.color
  | Kind.N => Rules.knight_moves bd r c p.color
  | Kind.B => Rules.slider_moves bd r c p.color diag_dirs
  | Kind.R => Rules.slider_moves bd r c p.color orth_dirs
  | Kind.Q => Rules.slider_moves bd r c p.color (diag_dirs ++ orth_dirs)
  | Kind.K => Rules.king_moves bd r c p.color

/-- `Rules.generate_moves(board, color)`: row-major scan, extending with each
own-color piece's moves. -/
def Rules.generate_moves (bd : Board) (color : Color) : List Move :=
  bd.all_pieces.flatMap (fun t =>
    if t.2.2.color = color then Rules.piece_moves bd t.1 t.2.1 t.2.2 else [])

/-- The while-loop of the slider branch of `Rules.is_square_attacked`: walk
outward from `pos`; report the queried square when reached, stop at the first
occupied square. -/
def Rules.attack_walk (bd : Board) (r c : Int) (d : Int × Int) :
    Int × Int → Nat → Bool
  | _, 0 => false
  | pos, fuel + 1 =>
    if inBounds pos.1 pos.2 then
      if pos.1 = r ∧ pos.2 = c then true
      else if (bd.get pos.1 pos.2).isSome then false
      else Rules.attack_walk bd r c d (pos.1 + d.1, pos.2 + d.2) fuel
    else false

/-- The per-piece body of the `all_pieces` loop in `Rules.is_square_attacked`:
does the piece `p` sitting on `(rr, cc)` attack `(r, c)`?  The pawn and
knight branches bounds-check the queried square before reporting an attack;
the king branch (faithfully to the source) does not. -/
def Rules.piece_attacks (bd : Board) (rr cc : Int) (p : Piece) (r c : Int) : Bool :=
  match p.kind with
  | Kind.P =>
      let d : Int := pawn_dir p.color
      decide (((rr + d = r ∧ cc + -1 = c) ∨ (rr + d = r ∧ cc + 1 = c)) ∧ inBounds r c = true)
  | Kind.N =>
      knight_offsets.any (fun o => decide (rr + o.1 = r ∧ cc + o.2 = c)) && inBounds r c
  | Kind.B => diag_dirs.any (fun d => Rules.attack_walk bd r c d (rr + d.1, cc + d.2) 8)
  | Kind.R => orth_dirs.any (fun d => Rules.attack_walk bd r c d (rr + d.1, cc + d.2) 8)
  | Kind.Q => (diag_dirs ++ orth_dirs).any (fun d => Rules.attack_walk bd r c d (rr + d.1, cc + d.2) 8)
  | Kind.K => king_offsets.any (fun o => decide (rr + o.1 = r ∧ cc + o.2 = c))

/-- `Rules.is_square_attacked(board, r, c, by_color)`. -/
def Rules.is_square_attacked (bd : Board) (r c : Int) (by_color : Color) : Bool :=
  bd.all_pieces.any (fun t =>
    decide (t.2.2.color = by_color) && Rules.piece_attacks bd t.1 t.2.1 t.2.2 r c)

/-- `sim = board.clone(); sim.move_piece(mv)` as a value. -/
def SimpleAI.simulate (bd : Board) (mv : Move) : Board :=
  bd.clone.move_piece mv

/-- One iteration of the tier-1 (free capture) loop of
`SimpleAI.choose_move`.  The accumulator is
`(best_free_capture, best_capture_value)`, with `none` standing for the
initial `-inf`. -/
def SimpleAI.capture_step (bd : Board) (color : Color)
    (acc : Option Move × Option Int) (mv : Move) : Option Move × Option Int :=
  match bd.get mv.stop.1 mv.stop.2 with
  | some target =>
      if target.color ≠ color then
        if Rules.is_square_attacked (SimpleAI.simulate bd mv) mv.stop.1 mv.stop.2
            (if color = Color.b then Color.w else Color.b) = false then
          match acc.2 with
          | none => (some mv, some (piece_values target.kind))
          | some bv =>
              if bv < piece_values target.kind then
                (some mv, some (piece_values target.kind))
              else acc
        else acc
      else acc
  | none => acc

/-- One iteration of the tier-2 (one-ply material) loop of
`SimpleAI.choose_move`.  `none` stands for the initial `-inf` (white) or
`+inf` (black). -/
def SimpleAI.eval_step (bd : Board) (color : Color)
    (acc : Option Move × Option Int) (mv : Move) : Option Move × Option Int :=
  let ev := (SimpleAI.simulate bd mv).material
  match color with
  | Color.w =>
      match acc.2 with
      | none => (some mv, some ev)
      | some bv => if bv < ev then (some mv, some ev) else acc
  | Color.b =>
      match acc.2 with
      | none => (some mv, some ev)
      | some bv => if ev < bv then (some mv, some ev) else acc

/-- `SimpleAI.choose_move(board)` for the AI color `color`: empty move list
gives `None`; otherwise the best free capture, else the best one-ply material
move, else the first generated move. -/
def SimpleAI.choose_move (color : Color) (bd : Board) : Option Move :=
  let moves := Rules.generate_moves bd color
  if moves.isEmpty then none
  else
    match (moves.foldl (SimpleAI.capture_step bd color) (none, none)).1 with
    | some mv => some mv
    | none =>
        match (moves.foldl (SimpleAI.eval_step bd color) (none, none)).1 with
        | some mv => some mv
        | none => moves.head?

/-! ### Heap model

Python `Board` objects live on a heap; `clone` allocates a fresh object and
`move_piece` mutates one in place.  A heap is a list of boards addressed by
index. -/

/-- The object heap: one cell per live `Board` object. -/
abbrev Heap : Type := List Board

/-- Read the board stored in cell `i`. -/
def heap_read (h : Heap) (i : Nat) : Option Board := h.get? i

/-- Overwrite cell `i` (in-place mutation of the object). -/
def heap_write (h : Heap) (i : Nat) (bd : Board) : Heap := h.set i bd

/-- Allocate a fresh cell holding `bd`; returns the new heap and the cell. -/
def heap_alloc (h : Heap) (bd : Board) : Heap × Nat := (h ++ [bd], h.length)

/-- `x = obj.clone()` on the heap: allocate a fresh cell holding the clone. -/
def clone_alloc (h : Heap) (i : Nat) : Heap × Nat :=
  match heap_read h i with
  | some bd => heap_alloc h bd.clone
  | none => (h, h.length)

/-- `obj.move_piece(mv)` on the heap: mutate cell `i` in place. -/
def move_piece_at (h : Heap) (i : Nat) (mv : Move) : Heap :=
  match heap_read h i with
  | some bd => heap_write h i (bd.move_piece mv)
  | none => h

/-- `sim = board.clone(); sim.move_piece(mv)` on the heap: allocate the clone,
then mutate the fresh cell. -/
def simulate_at (h : Heap) (i : Nat) (mv : Move) : Heap × Nat :=
  match clone_alloc h i with
  | (h1, j) => (move_piece_at h1 j mv, j)

/-- Tier-1 loop iteration of `SimpleAI.choose_move`, heap-threaded: the
board is read from cell `i`, the simulation clone is a fresh cell. -/
def SimpleAI.capture_step_at (color : Color) (i : Nat)
    (st : (Option Move × Option Int) × Heap) (mv : Move) :
    (Option Move × Option Int) × Heap :=
  match heap_read st.2 i with
  | none => st
  | some bd =>
    match bd.get mv.stop.1 mv.stop.2 with
    | some target =>
        if target.color ≠ color then
          match simulate_at st.2 i mv with
          | (h2, j) =>
            match heap_read h2 j with
            | none => (st.1, h2)
            | some sim =>
                if Rules.is_square_attacked sim mv.stop.1 mv.stop.2
                    (if color = Color.b then Color.w else Color.b) = false then
                  match st.1.2 with
                  | none => ((some mv, some (piece_values target.kind)), h2)
                  | some bv =>
                      if bv < piece_values target.kind then
                        ((some mv, some (piece_values target.kind)), h2)
                      else (st.1, h2)
                else (st.1, h2)
        else st
    | none => st

/-- Tier-2 loop iteration of `SimpleAI.choose_move`, heap-threaded: `s.1` is
the heap after allocating and mutating the simulation clone, `s.2` the cell
the clone lives in. -/
def SimpleAI.eval_step_at (color : Color) (i : Nat)
    (st : (Option Move × Option Int) × Heap) (mv : Move) :
    (Option Move × Option Int) × Heap :=
  let s := simulate_at st.2 i mv
  match heap_read s.1 s.2 with
  | none => (st.1, s.1)
  | some sim =>
      let ev := sim.material
      match color with
      | Color.w =>
          match st.1.2 with
          | none => ((some mv, some ev), s.1)
          | some bv => if bv < ev then ((some mv, some ev), s.1) else (st.1, s.1)
      | Color.b =>
          match st.1.2 with
          | none => ((some mv, some ev), s.1)
          | some bv => if ev < bv then ((some mv, some ev), s.1) else (st.1, s.1)

/-- `SimpleAI.choose_move` with the game board living in heap cell `i`. -/
def SimpleAI.choose_move_at (color : Color) (h : Heap) (i : Nat) :
    Option Move × Heap :=
  match heap_read h i with
  | none => (none, h)
  | some bd =>
    let moves := Rules.generate_moves bd color
    if moves.isEmpty then (none, h)
    else
      let t1 := moves.foldl (SimpleAI.capture_step_at color i) ((none, none), h)
      match t1.1.1 with
      | some mv => (some mv, t1.2)
      | none =>
        let t2 := moves.foldl (SimpleAI.eval_step_at color i) ((none, none), t1.2)
        match t2.1.1 with
        | some mv => (some mv, t2.2)
        | none => (moves.head?, t2.2)

/-! ### Specification-side definitions -/

/-- The value of the piece captured by `mv` (0 when `mv` is not a capture). -/
def captured_value (bd : Board) (mv : Move) : Int :=
  match bd.get mv.stop.1 mv.stop.2 with
  | some t => piece_values t.kind
  | none => 0

/-- A safe capture in the sense of tier 1: the destination holds an
opposite-color piece and, after simulating the move on a clone, the
destination is not attacked by the opponent. -/
def safe_capture (bd : Board) (color : Color) (mv : Move) : Bool :=
  match bd.get mv.stop.1 mv.stop.2 with
  | some t =>
      decide (t.color ≠ color) &&
        !(Rules.is_square_attacked (SimpleAI.simulate bd mv) mv.stop.1 mv.stop.2
            (if color = Color.b then Color.w else Color.b))
  | none => false

/-- The generic best-so-far fold step both tiers instantiate: take `x` when
`q x` holds and its value strictly beats the best so far. -/
def bestStep (q : Move → Bool) (f : Move → Int)
    (acc : Option Move × Option Int) (x : Move) : Option Move × Option Int :=
  if q x then
    match acc.2 with
    | none => (some x, some (f x))
    | some bv => if bv < f x then (some x, some (f x)) else acc
  else acc

/-- The occupant `Board.move_piece` places on the destination square:
the moved piece, or a fresh promoted piece when the move carries a promotion
and the mover is a pawn. -/
def placed_piece (bd : Board) (mv : Move) : Option Piece :=
  match mv.promotion, bd.get mv.start.1 mv.start.2 with
  | some k, some p =>
      if p.kind = Kind.P then some (Piece.mk p.color k) else bd.get mv.start.1 mv.start.2
  | _, _ => bd.get mv.start.1 mv.start.2

/-- The claim's characterization of a slider attack: walking outward from
`(rr, cc)` along `d`, the queried square `(r, c)` is reached at or before the
first occupied square — every strictly earlier square of the walk is
in bounds and empty. -/
def ray_reaches (bd : Board) (rr cc : Int) (d : Int × Int) (r c : Int) : Prop :=
  ∃ k : Nat, 1 ≤ k ∧ r = rr + (k : Int) * d.1 ∧ c = cc + (k : Int) * d.2 ∧
    ∀ j : Nat, 1 ≤ j → j < k →
      inBounds (rr + (j : Int) * d.1) (cc + (j : Int) * d.2) = true ∧
      bd.get (rr + (j : Int) * d.1) (cc + (j : Int) * d.2) = none

/-- The direction set of a sliding piece kind (empty for non-sliders). -/
def slider_dirs : Kind → List (Int × Int)
  | Kind.B => diag_dirs
  | Kind.R => orth_dirs
  | Kind.Q => diag_dirs ++ orth_dirs
  | _ => []

/-! ### Concrete boards used for instance checks -/

/-- A board holding a single white pawn on (1,3), one step from promotion. -/
def pawnPromoBoard : Board :=
  ⟨[emptyRank,
    [none, none, none, some ⟨Color.w, Kind.P⟩, none, none, none, none],
    emptyRank, emptyRank, emptyRank, emptyRank, emptyRank, emptyRank], Color.w⟩

/-- A board where the white rook on (4,0) can freely capture the black pawn
on (4,4). -/
def rookCaptureBoard : Board :=
  ⟨[emptyRank, emptyRank, emptyRank, emptyRank,
    [some ⟨Color.w, Kind.R⟩, none, none, none, some ⟨Color.b, Kind.P⟩, none, none, none],
    emptyRank, emptyRank, emptyRank], Color.w⟩

/-- A board holding a single white rook on (0,0). -/
def loneRookBoard : Board :=
  ⟨[[some ⟨Color.w, Kind.R⟩, none, none, none, none, none, none, none],
    emptyRank, emptyRank, emptyRank, emptyRank, emptyRank, emptyRank, emptyRank], Color.w⟩

/-! ### Basic lemmas about the board accessors -/

lemma get_some_inBounds {bd : Board} {r c : Int} {p : Piece}
    (h : bd.get r c = some p) : inBounds r c = true := by
  unfold Board.get at h
  by_cases hb : inBounds r c = true
  · exact hb
  · simp [hb] at h

lemma inBounds_iff {r c : Int} :
    inBounds r c = true ↔ 0 ≤ r ∧ r < 8 ∧ 0 ≤ c ∧ c < 8 := by
  unfold inBounds
  simp

lemma mem_rowMajorSquares {r c : Int} :
    (r, c) ∈ rowMajorSquares ↔ inBounds r c = true := by
  have hr8 : ∀ x : Int, x ∈ range8 ↔ 0 ≤ x ∧ x < 8 := by
    intro x
    unfold range8
    constructor
    · intro hx
      fin_cases hx <;> omega
    · intro hx
      have : x = 0 ∨ x = 1 ∨ x = 2 ∨ x = 3 ∨ x = 4 ∨ x = 5 ∨ x = 6 ∨ x = 7 := by omega
      rcases this with h | h | h | h | h | h | h | h <;> subst h <;> simp
  unfold rowMajorSquares
  rw [inBounds_iff, List.mem_flatMap]
  constructor
  · rintro ⟨a, ha, hm⟩
    rw [List.mem_map] at hm
    obtain ⟨b, hb, heq⟩ := hm
    rw [hr8] at ha hb
    simp only [Prod.mk.injEq] at heq
    obtain ⟨h1, h2⟩ := heq
    subst h1; subst h2
    exact ⟨ha.1, ha.2, hb.1, hb.2⟩
  · intro hb
    obtain ⟨h0, h1, h2, h3⟩ := hb
    refine ⟨r, (hr8 r).mpr ⟨h0, h1⟩, ?_⟩
    rw [List.mem_map]
    exact ⟨c, (hr8 c).mpr ⟨h2, h3⟩, rfl⟩

lemma mem_all_pieces {bd : Board} {rr cc : Int} {p : Piece} :
    (rr, cc, p) ∈ bd.all_pieces ↔ bd.get rr cc = some p := by
  unfold Board.all_pieces
  rw [List.mem_filterMap]
  constructor
  · rintro ⟨⟨a, b⟩, _, hf⟩
    rw [Option.map_eq_some'] at hf
    obtain ⟨q, hq, heq⟩ := hf
    simp only [Prod.mk.injEq] at heq
    obtain ⟨h1, h2, h3⟩ := heq
    subst h1; subst h2; subst h3
    exact hq
  · intro h
    exact ⟨(rr, cc), mem_rowMajorSquares.mpr (get_some_inBounds h), by simp [h]⟩


lemma mem_ite_nil {α : Type} {p : Prop} [Decidable p] {l : List α} {x : α}
    (h : x ∈ if p then l else []) : p ∧ x ∈ l := by
  by_cases hp : p
  · rw [if_pos hp] at h; exact ⟨hp, h⟩
  · rw [if_neg hp] at h; cases h

lemma maybe_promote_char (a : Int × Int) (e1 e2 : Int) (color : Color) :
    (Rules.maybe_promote ⟨a, (e1, e2), none⟩ color e1).start = a ∧
    (Rules.maybe_promote ⟨a, (e1, e2), none⟩ color e1).stop = (e1, e2) ∧
    ((Rules.maybe_promote ⟨a, (e1, e2), none⟩ color e1).promotion ≠ none ↔
      e1 = (if color = Color.w then 0 else 7)) ∧
    ((Rules.maybe_promote ⟨a, (e1, e2), none⟩ color e1).promotion = none ∨
      (Rules.maybe_promote ⟨a, (e1, e2), none⟩ color e1).promotion = some Kind.Q) := by
  unfold Rules.maybe_promote
  cases color <;> simp <;> split <;> simp_all

lemma pawn_double_row (color : Color) :
    0 ≤ pawn_start_row color + 2 * pawn_dir color ∧
    pawn_start_row color + 2 * pawn_dir color < 8 ∧
    pawn_start_row color + 2 * pawn_dir color ≠ (if color = Color.w then 0 else 7) := by
  cases color <;> simp [pawn_start_row, pawn_dir]

/-- The common shape statement for a move generated by a piece on `(r, c)`. -/
def move_shape (bd : Board) (r c : Int) (color : Color) (mv : Move) : Prop :=
  mv.start = (r, c) ∧ inBounds mv.stop.1 mv.stop.2 = true ∧
  (bd.get mv.stop.1 mv.stop.2 = none ∨
    ∃ q, bd.get mv.stop.1 mv.stop.2 = some q ∧ q.color ≠ color)

lemma pawn_moves_shape {bd : Board} {r c : Int} {color : Color} {mv : Move}
    (hin : inBounds r c = true)
    (hmem : mv ∈ Rules.pawn_moves bd r c color) :
    move_shape bd r c color mv ∧
    (mv.promotion ≠ none ↔ mv.stop.1 = (if color = Color.w then 0 else 7)) ∧
    (mv.promotion = none ∨ mv.promotion = some Kind.Q) := by
  rw [inBounds_iff] at hin
  unfold Rules.pawn_moves at hmem
  simp only [List.mem_append] at hmem
  rcases hmem with hfwd | hcap
  · -- forward moves
    obtain ⟨h1, hfwd⟩ := mem_ite_nil hfwd
    rcases List.mem_cons.mp hfwd with h | h2
    · -- single step to the empty square (r + d, c)
      subst h
      obtain ⟨hs, he, hp1, hp2⟩ :=
        maybe_promote_char (r, c) (r + pawn_dir color) c color
      refine ⟨⟨hs, ?_, ?_⟩, ?_, hp2⟩
      · rw [he]; exact h1.1
      · rw [he]; exact Or.inl h1.2
      · rw [he]; exact hp1
    · -- double step to the empty square (r + 2d, c)
      obtain ⟨h3, h2⟩ := mem_ite_nil h2
      rcases List.mem_singleton.mp h2 with h
      subst h
      refine ⟨⟨rfl, ?_, Or.inl h3.2⟩, ?_, Or.inl rfl⟩
      · show inBounds (r + 2 * pawn_dir color) c = true
        have hr := h3.1
        have hb := pawn_double_row color
        rw [inBounds_iff]
        refine ⟨by omega, by omega, hin.2.2.1, hin.2.2.2⟩
      · show (none : Option Kind) ≠ none ↔ (r + 2 * pawn_dir color, c).1 = _
        have hr := h3.1
        have hb := pawn_double_row color
        constructor
        · intro h; exact absurd rfl h
        · intro h
          exfalso
          apply hb.2.2
          rw [← h, hr]
  · -- diagonal captures
    rw [List.mem_flatMap] at hcap
    obtain ⟨dc, hdc, hmv⟩ := hcap
    obtain ⟨hbnd, hmv⟩ := mem_ite_nil hmv
    cases hget : bd.get (r + pawn_dir color) (c + dc) with
    | none => simp [hget] at hmv
    | some t =>
      simp only [hget] at hmv
      obtain ⟨hne, hmv⟩ := mem_ite_nil hmv
      rcases List.mem_singleton.mp hmv with h
      subst h
      obtain ⟨hs, he, hp1, hp2⟩ :=
        maybe_promote_char (r, c) (r + pawn_dir color) (c + dc) color
      refine ⟨⟨hs, ?_, ?_⟩, ?_, hp2⟩
      · rw [he]; exact hbnd
      · rw [he]; exact Or.inr ⟨t, hget, hne⟩
      · rw [he]; exact hp1

lemma offset_moves_shape {bd : Board} {r c : Int} {color : Color} {mv : Move}
    {offs : List (Int × Int)}
    (hmem : mv ∈ offs.flatMap (fun o =>
      if inBounds (r + o.1) (c + o.2) then
        match bd.get (r + o.1) (c + o.2) with
        | none => [⟨(r, c), (r + o.1, c + o.2), none⟩]
        | some t => if t.color ≠ color then [⟨(r, c), (r + o.1, c + o.2), none⟩] else []
      else [])) :
    move_shape bd r c color mv ∧ mv.promotion = none := by
  rw [List.mem_flatMap] at hmem
  obtain ⟨o, _, hmv⟩ := hmem
  obtain ⟨hbnd, hmv⟩ := mem_ite_nil hmv
  cases hget : bd.get (r + o.1) (c + o.2) with
  | none =>
    simp only [hget] at hmv
    rcases List.mem_singleton.mp hmv with h
    subst h
    exact ⟨⟨rfl, hbnd, Or.inl hget⟩, rfl⟩
  | some t =>
    simp only [hget] at hmv
    obtain ⟨hne, hmv⟩ := mem_ite_nil hmv
    rcases List.mem_singleton.mp hmv with h
    subst h
    exact ⟨⟨rfl, hbnd, Or.inr ⟨t, hget, hne⟩⟩, rfl⟩

lemma knight_moves_shape {bd : Board} {r c : Int} {color : Color} {mv : Move}
    (hmem : mv ∈ Rules.knight_moves bd r c color) :
    move_shape bd r c color mv ∧ mv.promotion = none := by
  unfold Rules.knight_moves at hmem
  exact offset_moves_shape hmem

lemma king_moves_shape {bd : Board} {r c : Int} {color : Color} {mv : Move}
    (hmem : mv ∈ Rules.king_moves bd r c color) :
    move_shape bd r c color mv ∧ mv.promotion = none := by
  unfold Rules.king_moves at hmem
  exact offset_moves_shape hmem

lemma slider_walk_shape {bd : Board} {a : Int × Int} {color : Color} {d : Int × Int}
    {mv : Move} :
    ∀ (fuel : Nat) (pos : Int × Int), mv ∈ Rules.slider_walk bd a color d pos fuel →
    mv.start = a ∧ inBounds mv.stop.1 mv.stop.2 = true ∧
    (bd.get mv.stop.1 mv.stop.2 = none ∨
      ∃ q, bd.get mv.stop.1 mv.stop.2 = some q ∧ q.color ≠ color) ∧
    mv.promotion = none := by
  intro fuel
  induction fuel with
  | zero => intro pos h; cases h
  | succ n ih =>
    intro pos h
    unfold Rules.slider_walk at h
    obtain ⟨hbnd, h⟩ := mem_ite_nil h
    cases hget : bd.get pos.1 pos.2 with
    | none =>
      simp only [hget] at h
      rcases List.mem_cons.mp h with h1 | h2
      · subst h1
        exact ⟨rfl, hbnd, Or.inl hget, rfl⟩
      · exact ih (pos.1 + d.1, pos.2 + d.2) h2
    | some t =>
      simp only [hget] at h
      obtain ⟨hne, h⟩ := mem_ite_nil h
      rcases List.mem_singleton.mp h with h1
      subst h1
      exact ⟨rfl, hbnd, Or.inr ⟨t, hget, hne⟩, rfl⟩

lemma slider_moves_shape {bd : Board} {r c : Int} {color : Color} {mv : Move}
    {dirs : List (Int × Int)}
    (hmem : mv ∈ Rules.slider_moves bd r c color dirs) :
    move_shape bd r c color mv ∧ mv.promotion = none := by
  unfold Rules.slider_moves at hmem
  rw [List.mem_flatMap] at hmem
  obtain ⟨d, _, hmv⟩ := hmem
  obtain ⟨hs, hb, hocc, hp⟩ := slider_walk_shape 8 (r + d.1, c + d.2) hmv
  exact ⟨⟨hs, hb, hocc⟩, hp⟩

lemma piece_moves_shape {bd : Board} {r c : Int} {p : Piece} {mv : Move}
    (hin : inBounds r c = true)
    (hmem : mv ∈ Rules.piece_moves bd r c p) :
    move_shape bd r c p.color mv ∧
    (mv.promotion ≠ none ↔
      p.kind = Kind.P ∧ mv.stop.1 = (if p.color = Color.w then 0 else 7)) ∧
    (mv.promotion = none ∨ mv.promotion = some Kind.Q) := by
  unfold Rules.piece_moves at hmem
  cases hk : p.kind with
  | P =>
    rw [hk] at hmem
    obtain ⟨hshape, hiff, hq⟩ := pawn_moves_shape hin hmem
    exact ⟨hshape, by rw [hiff]; simp [hk], hq⟩
  | N =>
    rw [hk] at hmem
    obtain ⟨hshape, hp⟩ := knight_moves_shape hmem
    exact ⟨hshape, by simp [hp, hk], Or.inl hp⟩
  | B =>
    rw [hk] at hmem
    obtain ⟨hshape, hp⟩ := slider_moves_shape hmem
    exact ⟨hshape, by simp [hp, hk], Or.inl hp⟩
  | R =>
    rw [hk] at hmem
    obtain ⟨hshape, hp⟩ := slider_moves_shape hmem
    exact ⟨hshape, by simp [hp, hk], Or.inl hp⟩
  | Q =>
    rw [hk] at hmem
    obtain ⟨hshape, hp⟩ := slider_moves_shape hmem
    exact ⟨hshape, by simp [hp, hk], Or.inl hp⟩
  | K =>
    rw [hk] at hmem
    obtain ⟨hshape, hp⟩ := king_moves_shape hmem
    exact ⟨hshape, by simp [hp, hk], Or.inl hp⟩

lemma generate_moves_mem {bd : Board} {color : Color} {mv : Move}
    (hmem : mv ∈ Rules.generate_moves bd color) :
    ∃ rr cc p, bd.get rr cc = some p ∧ p.color = color ∧
      mv ∈ Rules.piece_moves bd rr cc p := by
  unfold Rules.generate_moves at hmem
  rw [List.mem_flatMap] at hmem
  obtain ⟨⟨rr, cc, p⟩, ht, hmv⟩ := hmem
  obtain ⟨hcol, hmv⟩ := mem_ite_nil hmv
  exact ⟨rr, cc, p, mem_all_pieces.mp ht, hcol, hmv⟩

lemma color_ne_iff (x y : Color) :
    x ≠ y ↔ x = (if y = Color.w then Color.b else Color.w) := by
  cases x <;> cases y <;> decide

/-- C1: every generated move has in-bounds start and end squares, its start
square holds a piece of the requested color, and its end square is empty or
holds a piece of the opposite color. -/
theorem generate_moves_sound (bd : Board) (color : Color) (mv : Move)
    (hmem : mv ∈ Rules.generate_moves bd color) :
    inBounds mv.start.1 mv.start.2 = true ∧
    inBounds mv.stop.1 mv.stop.2 = true ∧
    (∃ p, bd.get mv.start.1 mv.start.2 = some p ∧ p.color = color) ∧
    (bd.get mv.stop.1 mv.stop.2 = none ∨
      ∃ q, bd.get mv.stop.1 mv.stop.2 = some q ∧
        q.color = (if color = Color.w then Color.b else Color.w)) := by
  obtain ⟨rr, cc, p, hget, hcol, hmv⟩ := generate_moves_mem hmem
  have hin := get_some_inBounds hget
  obtain ⟨⟨hs, hb, hocc⟩, _, _⟩ := piece_moves_shape hin hmv
  subst hcol
  refine ⟨?_, hb, ?_, ?_⟩
  · rw [hs]; exact hin
  · rw [hs]; exact ⟨p, hget, rfl⟩
  · rcases hocc with h | ⟨q, hq, hne⟩
    · exact Or.inl h
    · exact Or.inr ⟨q, hq, (color_ne_iff q.color p.color).mp hne⟩

/-- C10: a generated move carries a promotion exactly when it is a pawn move
whose destination row is the opponent's home rank (0 for white, 7 for black),
and any promotion it carries is a queen. -/
theorem generate_moves_promotion (bd : Board) (color : Color) (mv : Move)
    (hmem : mv ∈ Rules.generate_moves bd color) :
    ((mv.promotion ≠ none) ↔
      ((∃ p, bd.get mv.start.1 mv.start.2 = some p ∧ p.kind = Kind.P) ∧
        mv.stop.1 = (if color = Color.w then 0 else 7))) ∧
    (mv.promotion = none ∨ mv.promotion = some Kind.Q) := by
  obtain ⟨rr, cc, p, hget, hcol, hmv⟩ := generate_moves_mem hmem
  have hin := get_some_inBounds hget
  obtain ⟨⟨hs, _, _⟩, hiff, hq⟩ := piece_moves_shape hin hmv
  subst hcol
  refine ⟨?_, hq⟩
  rw [hiff]
  constructor
  · rintro ⟨hk, hrow⟩
    refine ⟨⟨p, ?_, hk⟩, hrow⟩
    rw [hs]; exact hget
  · rintro ⟨⟨p', hp', hk'⟩, hrow⟩
    rw [hs] at hp'
    have : p' = p := by
      have h2 := hp'.symm.trans hget
      exact Option.some.inj h2
    subst this
    exact ⟨hk', hrow⟩

/-! ### `move_piece` as two writes (claim C4) -/

lemma getD_set_ne {α : Type} : ∀ (l : List α) (i j : Nat) (a d : α), i ≠ j →
    (l.set i a).getD j d = l.getD j d
  | [], _, _, _, _, _ => rfl
  | _ :: _, 0, 0, _, _, h => absurd rfl h
  | _ :: _, 0, _+1, _, _, _ => rfl
  | _ :: _, _+1, 0, _, _, _ => rfl
  | _ :: xs, i+1, j+1, a, d, h =>
      getD_set_ne xs i j a d (fun he => h (by rw [he]))

lemma getD_set_eq {α : Type} : ∀ (l : List α) (i : Nat) (a d : α), i < l.length →
    (l.set i a).getD i d = a
  | [], i, _, _, h => absurd h (by simp)
  | _ :: _, 0, _, _, _ => rfl
  | _ :: xs, i+1, a, d, h => getD_set_eq xs i a d (by simpa using h)

lemma set_of_length_le {α : Type} : ∀ (l : List α) (i : Nat) (a : α),
    l.length ≤ i → l.set i a = l
  | [], _, _, _ => rfl
  | _ :: _, 0, _, h => absurd h (by simp)
  | x :: xs, i+1, a, h => by
      rw [show (x :: xs).set (i+1) a = x :: xs.set i a from rfl,
        set_of_length_le xs i a (by simpa using h)]

lemma set_WF {bd : Board} {r c : Int} {p : Option Piece} (hwf : bd.WF) :
    (bd.set r c p).WF := by
  obtain ⟨hlen, hrows⟩ := hwf
  by_cases hlt : r.toNat < bd.board.length
  · constructor
    · simpa [Board.set] using hlen
    · intro row hrow
      simp only [Board.set] at hrow
      rcases List.mem_or_eq_of_mem_set hrow with h | h
      · exact hrows row h
      · subst h
        rw [List.length_set, List.getD_eq_getElem _ _ hlt]
        exact hrows _ (List.getElem_mem hlt)
  · constructor
    · simpa [Board.set] using hlen
    · intro row hrow
      simp only [Board.set, set_of_length_le bd.board r.toNat _ (by omega)] at hrow
      exact hrows row hrow

lemma get_set_self {bd : Board} {r c : Int} {p : Option Piece} (hwf : bd.WF)
    (hin : inBounds r c = true) :
    (bd.set r c p).get r c = p := by
  have hb := inBounds_iff.mp hin
  obtain ⟨hlen, hrows⟩ := hwf
  have hrn : r.toNat < bd.board.length := by omega
  have hrow8 : (bd.board.getD r.toNat []).length = 8 := by
    rw [List.getD_eq_getElem _ _ hrn]
    exact hrows _ (List.getElem_mem hrn)
  simp only [Board.get, Board.set, hin, if_true]
  rw [getD_set_eq _ _ _ _ hrn]
  rw [getD_set_eq _ _ _ _ (by omega)]

lemma get_set_other {bd : Board} {r c r' c' : Int} {p : Option Piece} (hwf : bd.WF)
    (hin : inBounds r c = true) (hin' : inBounds r' c' = true)
    (hne : (r', c') ≠ (r, c)) :
    (bd.set r c p).get r' c' = bd.get r' c' := by
  have hb := inBounds_iff.mp hin
  have hb' := inBounds_iff.mp hin'
  obtain ⟨hlen, hrows⟩ := hwf
  simp only [Board.get, Board.set, hin', if_true]
  by_cases hr : r' = r
  · subst hr
    have hc : c' ≠ c := by
      intro h; exact hne (by rw [h])
    have hrn : r'.toNat < bd.board.length := by omega
    rw [getD_set_eq _ _ _ _ hrn]
    rw [getD_set_ne _ _ _ _ _ (by omega)]
  · rw [getD_set_ne _ _ _ _ _ (by omega)]

lemma get_ignores_to_move (bd : Board) (t : Color) (r c : Int) :
    (Board.mk bd.board t).get r c = bd.get r c := rfl

lemma move_piece_eq (bd : Board) (mv : Move) :
    bd.move_piece mv =
      Board.mk
        (((bd.set mv.start.1 mv.start.2 none).set mv.stop.1 mv.stop.2
            (placed_piece bd mv)).board)
        (if bd.to_move = Color.w then Color.b else Color.w) := by
  cases h : bd.get mv.start.1 mv.start.2 with
  | none =>
    cases hp : mv.promotion <;>
      simp [Board.move_piece, placed_piece, Board.set, h, hp]
  | some p =>
    cases hp : mv.promotion with
    | none => simp [Board.move_piece, placed_piece, Board.set, h, hp]
    | some k =>
      by_cases hk : p.kind = Kind.P <;>
        simp [Board.move_piece, placed_piece, Board.set, h, hp, hk]

/-- C4 (amended): an in-bounds move clears its start square whenever the start
and end squares differ (when they coincide the later placement overwrites the
cleared square), places the moved occupant — or the promoted piece — on the
end square, unconditionally flips the side to move, and leaves every other
square unchanged. -/
theorem move_piece_spec (bd : Board) (mv : Move) (hwf : bd.WF)
    (hs : inBounds mv.start.1 mv.start.2 = true)
    (he : inBounds mv.stop.1 mv.stop.2 = true) :
    (mv.start ≠ mv.stop → (bd.move_piece mv).get mv.start.1 mv.start.2 = none) ∧
    (bd.move_piece mv).get mv.stop.1 mv.stop.2 = placed_piece bd mv ∧
    (bd.move_piece mv).to_move = (if bd.to_move = Color.w then Color.b else Color.w) ∧
    (∀ r c : Int, inBounds r c = true → (r, c) ≠ mv.start → (r, c) ≠ mv.stop →
      (bd.move_piece mv).get r c = bd.get r c) := by
  rw [move_piece_eq]
  have hwf1 : (bd.set mv.start.1 mv.start.2 none).WF := set_WF hwf
  refine ⟨?_, ?_, rfl, ?_⟩
  · intro hne
    rw [get_ignores_to_move,
      get_set_other hwf1 he hs (by simpa only [Prod.mk.eta] using hne)]
    exact get_set_self hwf hs
  · rw [get_ignores_to_move]
    exact get_set_self hwf1 he
  · intro r c hrc hns hne2
    rw [get_ignores_to_move,
      get_set_other hwf1 he hrc (by simpa only [Prod.mk.eta] using hne2),
      get_set_other hwf hs hrc (by simpa only [Prod.mk.eta] using hns)]

/-- C4 counterexample: for the (in-bounds) degenerate move whose start and
end squares coincide, `move_piece` does not leave the start square empty —
the placement overwrites the removal, so the rook is still on (0,0). -/
theorem move_piece_start_cex :
    ¬ ((Board.initial.move_piece ⟨(0, 0), (0, 0), none⟩).get 0 0 = none) := by
  decide

/-- C7: `Board.get` is total and returns `None` off the board, but
`is_square_attacked` is not false for every off-board square: the black king
on (0,4) of the initial position makes the off-board square (-1,4) "attacked"
because the king branch omits the bounds check the pawn and knight branches
perform. -/
theorem attacked_out_of_bounds_eval :
    inBounds (-1) 4 = false ∧
    Board.initial.get (-1) 4 = none ∧
    Rules.is_square_attacked Board.initial (-1) 4 Color.b = true := by
  decide

/-! ### Characterization of the attack oracle (claims C8, C9) -/

lemma cast_succ_mul (k : Nat) (x : Int) :
    ((k + 1 : Nat) : Int) * x = (k : Int) * x + x := by
  push_cast
  ring

lemma attack_walk_char (bd : Board) (r c : Int) (d : Int × Int) :
    ∀ (fuel : Nat) (pos : Int × Int),
    Rules.attack_walk bd r c d pos fuel = true ↔
      ∃ k : Nat, k < fuel ∧ r = pos.1 + (k : Int) * d.1 ∧ c = pos.2 + (k : Int) * d.2 ∧
        inBounds r c = true ∧
        ∀ j : Nat, j < k →
          inBounds (pos.1 + (j : Int) * d.1) (pos.2 + (j : Int) * d.2) = true ∧
          bd.get (pos.1 + (j : Int) * d.1) (pos.2 + (j : Int) * d.2) = none := by
  intro fuel
  induction fuel with
  | zero =>
    intro pos
    constructor
    · intro h; simp [Rules.attack_walk] at h
    · rintro ⟨k, hk, _⟩; omega
  | succ n ih =>
    intro pos
    unfold Rules.attack_walk
    by_cases hb : inBounds pos.1 pos.2 = true
    · rw [if_pos hb]
      by_cases ht : pos.1 = r ∧ pos.2 = c
      · rw [if_pos ht]
        constructor
        · intro _
          refine ⟨0, by omega, by simp [ht.1], by simp [ht.2], ?_, ?_⟩
          · rw [← ht.1, ← ht.2]; exact hb
          · intro j hj; exact absurd hj (by omega)
        · intro _; rfl
      · rw [if_neg ht]
        by_cases ho : (bd.get pos.1 pos.2).isSome = true
        · rw [if_pos ho]
          constructor
          · intro h; simp at h
          · rintro ⟨k, hk, h1, h2, hin, hall⟩
            exfalso
            cases k with
            | zero =>
              apply ht
              constructor
              · rw [h1]; simp
              · rw [h2]; simp
            | succ k' =>
              have h0 := (hall 0 (by omega)).2
              simp only [Nat.cast_zero, zero_mul, add_zero] at h0
              rw [h0] at ho
              simp at ho
        · rw [if_neg ho]
          have hnone : bd.get pos.1 pos.2 = none := by
            cases hg : bd.get pos.1 pos.2 with
            | none => rfl
            | some t => rw [hg] at ho; simp at ho
          rw [ih (pos.1 + d.1, pos.2 + d.2)]
          constructor
          · rintro ⟨k, hk, h1, h2, hin, hall⟩
            refine ⟨k + 1, by omega, ?_, ?_, hin, ?_⟩
            · rw [cast_succ_mul]; simp only [] at h1; linarith [h1]
            · rw [cast_succ_mul]; simp only [] at h2; linarith [h2]
            · intro j hj
              cases j with
              | zero => simpa using ⟨hb, hnone⟩
              | succ j' =>
                have hj' := hall j' (by omega)
                simp only [] at hj'
                rw [cast_succ_mul, cast_succ_mul]
                have e1 : pos.1 + ((j' : Int) * d.1 + d.1) = pos.1 + d.1 + (j' : Int) * d.1 := by ring
                have e2 : pos.2 + ((j' : Int) * d.2 + d.2) = pos.2 + d.2 + (j' : Int) * d.2 := by ring
                rw [e1, e2]
                exact hj'
          · rintro ⟨k, hk, h1, h2, hin, hall⟩
            cases k with
            | zero =>
              exfalso
              apply ht
              simp only [Nat.cast_zero, zero_mul, add_zero] at h1 h2
              exact ⟨h1.symm, h2.symm⟩
            | succ k' =>
              refine ⟨k', by omega, ?_, ?_, hin, ?_⟩
              · rw [cast_succ_mul] at h1; simp only []; linarith [h1]
              · rw [cast_succ_mul] at h2; simp only []; linarith [h2]
              · intro j hj
                have hj' := hall (j + 1) (by omega)
                rw [cast_succ_mul, cast_succ_mul] at hj'
                simp only []
                have e1 : pos.1 + ((j : Int) * d.1 + d.1) = pos.1 + d.1 + (j : Int) * d.1 := by ring
                have e2 : pos.2 + ((j : Int) * d.2 + d.2) = pos.2 + d.2 + (j : Int) * d.2 := by ring
                rw [e1, e2] at hj'
                exact hj'
    · rw [if_neg hb]
      constructor
      · intro h; simp at h
      · rintro ⟨k, hk, h1, h2, hin, hall⟩
        exfalso
        apply hb
        cases k with
        | zero =>
          simp only [Nat.cast_zero, zero_mul, add_zero] at h1 h2
          rw [h1, h2] at hin
          exact hin
        | succ k' =>
          have h0 := (hall 0 (by omega)).1
          simpa using h0

lemma piece_attacks_sound {bd : Board} {rr cc : Int} {p : Piece} {r c : Int}
    (hget : bd.get rr cc = some p)
    (h : Rules.piece_attacks bd rr cc p r c = true) :
    Rules.is_square_attacked bd r c p.color = true := by
  unfold Rules.is_square_attacked
  rw [List.any_eq_true]
  refine ⟨(rr, cc, p), mem_all_pieces.mpr hget, ?_⟩
  simp [h]

lemma slider_branch_char (bd : Board) (r c rr cc : Int) (d : Int × Int)
    (hin : inBounds r c = true) (hpc : inBounds rr cc = true)
    (hd1 : d.1 = -1 ∨ d.1 = 0 ∨ d.1 = 1) (hd2 : d.2 = -1 ∨ d.2 = 0 ∨ d.2 = 1)
    (hd0 : ¬(d.1 = 0 ∧ d.2 = 0)) :
    (Rules.attack_walk bd r c d (rr + d.1, cc + d.2) 8 = true ↔
      ray_reaches bd rr cc d r c) := by
  rw [attack_walk_char]
  unfold ray_reaches
  constructor
  · rintro ⟨k0, hk0, h1, h2, _, hall⟩
    simp only [] at h1 h2
    refine ⟨k0 + 1, by omega, ?_, ?_, ?_⟩
    · rw [cast_succ_mul]; linarith
    · rw [cast_succ_mul]; linarith
    · intro j hj1 hjk
      obtain ⟨j', rfl⟩ : ∃ j'', j = j'' + 1 := ⟨j - 1, by omega⟩
      have h := hall j' (by omega)
      simp only [] at h
      rw [cast_succ_mul, cast_succ_mul]
      have e1 : rr + ((j' : Int) * d.1 + d.1) = rr + d.1 + (j' : Int) * d.1 := by ring
      have e2 : cc + ((j' : Int) * d.2 + d.2) = cc + d.2 + (j' : Int) * d.2 := by ring
      rw [e1, e2]
      exact h
  · rintro ⟨k, hk1, h1, h2, hall⟩
    have hpcb := inBounds_iff.mp hpc
    have hk8 : k ≤ 8 := by
      by_contra hgt
      have h8 := (hall 8 (by omega) (by omega)).1
      rw [inBounds_iff] at h8
      rcases hd1 with hx | hx | hx <;> rcases hd2 with hy | hy | hy <;>
        first
        | exact hd0 ⟨hx, hy⟩
        | (rw [hx, hy] at h8; push_cast at h8; omega)
    obtain ⟨k0, rfl⟩ : ∃ k0, k = k0 + 1 := ⟨k - 1, by omega⟩
    rw [cast_succ_mul] at h1
    rw [cast_succ_mul] at h2
    refine ⟨k0, by omega, by simp only []; linarith, by simp only []; linarith, hin, ?_⟩
    intro j hj
    have h := hall (j + 1) (by omega) (by omega)
    rw [cast_succ_mul, cast_succ_mul] at h
    simp only []
    have e1 : rr + ((j : Int) * d.1 + d.1) = rr + d.1 + (j : Int) * d.1 := by ring
    have e2 : cc + ((j : Int) * d.2 + d.2) = cc + d.2 + (j : Int) * d.2 := by ring
    rw [e1, e2] at h
    exact h

lemma slider_dirs_shape {kind : Kind} {d : Int × Int} (hd : d ∈ slider_dirs kind) :
    (d.1 = -1 ∨ d.1 = 0 ∨ d.1 = 1) ∧ (d.2 = -1 ∨ d.2 = 0 ∨ d.2 = 1) ∧
    ¬(d.1 = 0 ∧ d.2 = 0) := by
  cases kind with
  | K => exact absurd hd (by simp [slider_dirs])
  | N => exact absurd hd (by simp [slider_dirs])
  | P => exact absurd hd (by simp [slider_dirs])
  | B =>
      rw [show slider_dirs Kind.B =
        [((-1 : Int), (-1 : Int)), (-1, 1), (1, -1), (1, 1)] from rfl] at hd
      fin_cases hd <;> decide
  | R =>
      rw [show slider_dirs Kind.R =
        [((-1 : Int), (0 : Int)), (1, 0), (0, -1), (0, 1)] from rfl] at hd
      fin_cases hd <;> decide
  | Q =>
      rw [show slider_dirs Kind.Q =
        [((-1 : Int), (-1 : Int)), (-1, 1), (1, -1), (1, 1),
         (-1, 0), (1, 0), (0, -1), (0, 1)] from rfl] at hd
      fin_cases hd <;> decide

/-- C8: a sliding piece of a given color attacks exactly the squares its rays
reach at or before the first occupied square: every strictly earlier ray
square is in bounds and empty, and the reached square itself may be empty or
occupied by either color; such a piece makes `is_square_attacked` true there. -/
theorem slider_attack_char (bd : Board) (r c rr cc : Int) (p : Piece)
    (hin : inBounds r c = true) (hget : bd.get rr cc = some p)
    (hk : p.kind = Kind.B ∨ p.kind = Kind.R ∨ p.kind = Kind.Q) :
    (Rules.piece_attacks bd rr cc p r c = true ↔
      ∃ d ∈ slider_dirs p.kind, ray_reaches bd rr cc d r c) ∧
    (Rules.piece_attacks bd rr cc p r c = true →
      Rules.is_square_attacked bd r c p.color = true) := by
  have hpc := get_some_inBounds hget
  refine ⟨?_, piece_attacks_sound hget⟩
  have hany : Rules.piece_attacks bd rr cc p r c =
      (slider_dirs p.kind).any
        (fun d => Rules.attack_walk bd r c d (rr + d.1, cc + d.2) 8) := by
    obtain ⟨pc, pk⟩ := p
    rcases hk with hkk | hkk | hkk <;> (subst hkk; rfl)
  rw [hany, List.any_eq_true]
  constructor
  · rintro ⟨d, hd, hw⟩
    obtain ⟨hd1, hd2, hd0⟩ := slider_dirs_shape hd
    exact ⟨d, hd, (slider_branch_char bd r c rr cc d hin hpc hd1 hd2 hd0).mp hw⟩
  · rintro ⟨d, hd, hray⟩
    obtain ⟨hd1, hd2, hd0⟩ := slider_dirs_shape hd
    exact ⟨d, hd, (slider_branch_char bd r c rr cc d hin hpc hd1 hd2 hd0).mpr hray⟩

/-- C9: a pawn attacks exactly its two forward-diagonal squares — row `-1`
diagonals for white, row `+1` for black — irrespective of what (if anything)
occupies the queried square, and makes `is_square_attacked` true there. -/
theorem pawn_attack_char (bd : Board) (r c rr cc : Int) (p : Piece)
    (hin : inBounds r c = true) (hget : bd.get rr cc = some p)
    (hk : p.kind = Kind.P) :
    (Rules.piece_attacks bd rr cc p r c = true ↔
      (r = rr + pawn_dir p.color ∧ (c = cc - 1 ∨ c = cc + 1))) ∧
    (Rules.piece_attacks bd rr cc p r c = true →
      Rules.is_square_attacked bd r c p.color = true) := by
  refine ⟨?_, piece_attacks_sound hget⟩
  have harm : Rules.piece_attacks bd rr cc p r c =
      decide (((rr + pawn_dir p.color = r ∧ cc + -1 = c) ∨
        (rr + pawn_dir p.color = r ∧ cc + 1 = c)) ∧ inBounds r c = true) := by
    obtain ⟨pc, pk⟩ := p
    subst hk
    rfl
  rw [harm, decide_eq_true_eq]
  constructor
  · rintro ⟨⟨h1, h2⟩ | ⟨h1, h2⟩, _⟩
    · exact ⟨h1.symm, Or.inl (by omega)⟩
    · exact ⟨h1.symm, Or.inr (by omega)⟩
  · rintro ⟨h1, h2 | h2⟩
    · exact ⟨Or.inl ⟨h1.symm, by omega⟩, hin⟩
    · exact ⟨Or.inr ⟨h1.symm, by omega⟩, hin⟩

/-! ### Characterization of the best-so-far folds of `choose_move`
(claims C2, C3) -/

lemma bestStep_fold_seeded (q : Move → Bool) (f : Move → Int) :
    ∀ (l : List Move) (m0 : Move),
    ((l.foldl (bestStep q f) (some m0, some (f m0))).1 = some m0 ∧
      ∀ x ∈ l, q x = true → f x ≤ f m0) ∨
    (∃ m l1 l2, (l.foldl (bestStep q f) (some m0, some (f m0))).1 = some m ∧
      q m = true ∧ l = l1 ++ m :: l2 ∧ f m0 < f m ∧
      (∀ x ∈ l1, q x = true → f x < f m) ∧
      (∀ x ∈ l2, q x = true → f x ≤ f m)) := by
  intro l
  induction l with
  | nil => intro m0; exact Or.inl ⟨rfl, by simp⟩
  | cons x xs ih =>
    intro m0
    rw [List.foldl_cons]
    cases hq : q x with
    | false =>
      have hstep : bestStep q f (some m0, some (f m0)) x = (some m0, some (f m0)) := by
        unfold bestStep; rw [hq]; rfl
      rw [hstep]
      rcases ih m0 with ⟨h1, h2⟩ | ⟨m, l1, l2, h1, h2, h3, h4, h5, h6⟩
      · left
        refine ⟨h1, ?_⟩
        intro y hy hqy
        rcases List.mem_cons.mp hy with rfl | hy'
        · rw [hq] at hqy; cases hqy
        · exact h2 y hy' hqy
      · right
        refine ⟨m, x :: l1, l2, h1, h2, by rw [h3]; rfl, h4, ?_, h6⟩
        intro y hy hqy
        rcases List.mem_cons.mp hy with rfl | hy'
        · rw [hq] at hqy; cases hqy
        · exact h5 y hy' hqy
    | true =>
      by_cases hlt : f m0 < f x
      · have hstep : bestStep q f (some m0, some (f m0)) x = (some x, some (f x)) := by
          unfold bestStep; rw [hq]; simp [hlt]
        rw [hstep]
        rcases ih x with ⟨h1, h2⟩ | ⟨m, l1, l2, h1, h2, h3, h4, h5, h6⟩
        · right
          exact ⟨x, [], xs, h1, hq, rfl, hlt, by simp, h2⟩
        · right
          refine ⟨m, x :: l1, l2, h1, h2, by rw [h3]; rfl, lt_trans hlt h4, ?_, h6⟩
          intro y hy hqy
          rcases List.mem_cons.mp hy with rfl | hy'
          · exact h4
          · exact h5 y hy' hqy
      · have hstep : bestStep q f (some m0, some (f m0)) x = (some m0, some (f m0)) := by
          unfold bestStep; rw [hq]; simp [hlt]
        rw [hstep]
        rcases ih m0 with ⟨h1, h2⟩ | ⟨m, l1, l2, h1, h2, h3, h4, h5, h6⟩
        · left
          refine ⟨h1, ?_⟩
          intro y hy hqy
          rcases List.mem_cons.mp hy with rfl | hy'
          · exact not_lt.mp hlt
          · exact h2 y hy' hqy
        · right
          refine ⟨m, x :: l1, l2, h1, h2, by rw [h3]; rfl, h4, ?_, h6⟩
          intro y hy hqy
          rcases List.mem_cons.mp hy with rfl | hy'
          · exact lt_of_le_of_lt (not_lt.mp hlt) h4
          · exact h5 y hy' hqy

lemma bestStep_fold_spec (q : Move → Bool) (f : Move → Int) :
    ∀ l : List Move,
    ((l.foldl (bestStep q f) (none, none)).1 = none ∧ ∀ x ∈ l, q x = false) ∨
    (∃ m l1 l2, (l.foldl (bestStep q f) (none, none)).1 = some m ∧ q m = true ∧
      l = l1 ++ m :: l2 ∧ (∀ x ∈ l1, q x = true → f x < f m) ∧
      (∀ x ∈ l2, q x = true → f x ≤ f m)) := by
  intro l
  cases l with
  | nil => left; exact ⟨rfl, by simp⟩
  | cons x xs =>
    rw [List.foldl_cons]
    cases hq : q x with
    | false =>
      have hstep : bestStep q f (none, none) x = (none, none) := by
        unfold bestStep; rw [hq]; rfl
      rw [hstep]
      rcases bestStep_fold_spec q f xs with ⟨h1, h2⟩ | ⟨m, l1, l2, h1, h2, h3, h4, h5⟩
      · left
        refine ⟨h1, ?_⟩
        intro y hy
        rcases List.mem_cons.mp hy with rfl | hy'
        · exact hq
        · exact h2 y hy'
      · right
        refine ⟨m, x :: l1, l2, h1, h2, by rw [h3]; rfl, ?_, h5⟩
        intro y hy hqy
        rcases List.mem_cons.mp hy with rfl | hy'
        · rw [hq] at hqy; cases hqy
        · exact h4 y hy' hqy
    | true =>
      have hstep : bestStep q f (none, none) x = (some x, some (f x)) := by
        unfold bestStep; rw [hq]; rfl
      rw [hstep]
      rcases bestStep_fold_seeded q f xs x with ⟨h1, h2⟩ | ⟨m, l1, l2, h1, h2, h3, h4, h5, h6⟩
      · right
        exact ⟨x, [], xs, h1, hq, rfl, by simp, h2⟩
      · right
        refine ⟨m, x :: l1, l2, h1, h2, by rw [h3]; rfl, ?_, h6⟩
        intro y hy hqy
        rcases List.mem_cons.mp hy with rfl | hy'
        · exact h4
        · exact h5 y hy' hqy

lemma capture_step_eq (bd : Board) (color : Color) :
    SimpleAI.capture_step bd color =
      bestStep (safe_capture bd color) (captured_value bd) := by
  funext acc mv
  unfold SimpleAI.capture_step bestStep safe_capture captured_value
  cases hget : bd.get mv.stop.1 mv.stop.2 with
  | none => simp [hget]
  | some t =>
    by_cases hc : t.color = color
    · simp [hget, hc]
    · by_cases ha : Rules.is_square_attacked (SimpleAI.simulate bd mv) mv.stop.1
          mv.stop.2 (if color = Color.b then Color.w else Color.b) = false
      · simp [hget, hc, ha]
      · simp [hget, hc, ha]

lemma eval_step_w_eq (bd : Board) :
    SimpleAI.eval_step bd Color.w =
      bestStep (fun _ => true) (fun mv => (SimpleAI.simulate bd mv).material) := by
  funext acc mv
  unfold SimpleAI.eval_step bestStep
  cases acc.2 with
  | none => rfl
  | some bv => rfl

lemma eval_fold_b_eq (bd : Board) :
    ∀ (l : List Move) (acc1 : Option Move) (v : Option Int),
    (l.foldl (SimpleAI.eval_step bd Color.b) (acc1, v)).1 =
    (l.foldl
      (bestStep (fun _ => true) (fun mv => -(SimpleAI.simulate bd mv).material))
      (acc1, v.map (fun z => -z))).1 := by
  intro l
  induction l with
  | nil => intro acc1 v; rfl
  | cons x xs ih =>
    intro acc1 v
    rw [List.foldl_cons, List.foldl_cons]
    cases v with
    | none =>
      have h1 : SimpleAI.eval_step bd Color.b (acc1, none) x =
          (some x, some ((SimpleAI.simulate bd x).material)) := rfl
      have h2 : bestStep (fun _ => true)
          (fun mv => -(SimpleAI.simulate bd mv).material)
          (acc1, Option.map (fun z => -z) (none : Option Int)) x =
          (some x, some (-(SimpleAI.simulate bd x).material)) := rfl
      rw [h1, h2]
      have h3 := ih (some x) (some ((SimpleAI.simulate bd x).material))
      simpa using h3
    | some bv =>
      have h1 : SimpleAI.eval_step bd Color.b (acc1, some bv) x =
          (if (SimpleAI.simulate bd x).material < bv
            then (some x, some ((SimpleAI.simulate bd x).material))
            else (acc1, some bv)) := rfl
      have h2 : bestStep (fun _ => true)
          (fun mv => -(SimpleAI.simulate bd mv).material)
          (acc1, Option.map (fun z => -z) (some bv)) x =
          (if -bv < -(SimpleAI.simulate bd x).material
            then (some x, some (-(SimpleAI.simulate bd x).material))
            else (acc1, some (-bv))) := rfl
      rw [h1, h2]
      by_cases hlt : (SimpleAI.simulate bd x).material < bv
      · rw [if_pos hlt, if_pos (by omega)]
        have h3 := ih (some x) (some ((SimpleAI.simulate bd x).material))
        simpa using h3
      · rw [if_neg hlt, if_neg (by omega)]
        have h3 := ih acc1 (some bv)
        simpa using h3

lemma tier1_none_of_no_safe_capture (bd : Board) (color : Color)
    (hq : (Rules.generate_moves bd color).filter (safe_capture bd color) = []) :
    ((Rules.generate_moves bd color).foldl
      (SimpleAI.capture_step bd color) (none, none)).1 = none := by
  rw [capture_step_eq]
  rcases bestStep_fold_spec (safe_capture bd color) (captured_value bd)
      (Rules.generate_moves bd color) with ⟨h1, _⟩ | ⟨m, l1, l2, h1, h2, h3, _, _⟩
  · exact h1
  · exfalso
    have hm : m ∈ (Rules.generate_moves bd color).filter (safe_capture bd color) :=
      List.mem_filter.mpr
        ⟨by rw [h3]; exact List.mem_append_right _ (List.mem_cons_self _ _), h2⟩
    rw [hq] at hm
    cases hm

/-- C2: when at least one generated capture is safe (its destination is not
attacked by the opponent after simulating the capture on a clone),
`choose_move` returns a safe capture of maximal captured value, and every
safe capture generated earlier has strictly smaller captured value (so ties
go to the first-encountered one). -/
theorem choose_move_safe_capture (bd : Board) (color : Color)
    (hq : (Rules.generate_moves bd color).filter (safe_capture bd color) ≠ []) :
    ∃ mv, SimpleAI.choose_move color bd = some mv ∧
      safe_capture bd color mv = true ∧
      mv ∈ Rules.generate_moves bd color ∧
      (∀ mv' ∈ Rules.generate_moves bd color, safe_capture bd color mv' = true →
        captured_value bd mv' ≤ captured_value bd mv) ∧
      ∃ l1 l2, Rules.generate_moves bd color = l1 ++ mv :: l2 ∧
        ∀ mv' ∈ l1, safe_capture bd color mv' = true →
          captured_value bd mv' < captured_value bd mv := by
  have hne : Rules.generate_moves bd color ≠ [] := by
    intro h
    rw [h] at hq
    exact hq rfl
  rcases bestStep_fold_spec (safe_capture bd color) (captured_value bd)
      (Rules.generate_moves bd color) with ⟨h1, h2⟩ | ⟨m, l1, l2, h1, h2, h3, h4, h5⟩
  · exfalso
    apply hq
    rw [List.filter_eq_nil_iff]
    intro a ha
    rw [h2 a ha]
    simp
  · refine ⟨m, ?_, h2,
      by rw [h3]; exact List.mem_append_right _ (List.mem_cons_self _ _), ?_,
      l1, l2, h3, h4⟩
    · unfold SimpleAI.choose_move
      rw [if_neg (by simpa using hne)]
      rw [capture_step_eq, h1]
    · intro mv' hmem hq'
      rw [h3] at hmem
      rcases List.mem_append.mp hmem with hl | hr
      · exact le_of_lt (h4 mv' hl hq')
      · rcases List.mem_cons.mp hr with rfl | hl2
        · exact le_refl _
        · exact h5 mv' hl2 hq'

/-- C3: when no safe capture exists but moves do, `choose_move` returns the
generated move whose one-ply simulation maximizes `material()` for white
(minimizes it for black), earlier moves beating later ones on ties. -/
theorem choose_move_material_tier (bd : Board) (color : Color)
    (hne : Rules.generate_moves bd color ≠ [])
    (hq : (Rules.generate_moves bd color).filter (safe_capture bd color) = []) :
    ∃ mv, SimpleAI.choose_move color bd = some mv ∧
      mv ∈ Rules.generate_moves bd color ∧
      ∃ l1 l2, Rules.generate_moves bd color = l1 ++ mv :: l2 ∧
        (color = Color.w →
          (∀ x ∈ Rules.generate_moves bd color,
            (SimpleAI.simulate bd x).material ≤ (SimpleAI.simulate bd mv).material) ∧
          (∀ x ∈ l1,
            (SimpleAI.simulate bd x).material < (SimpleAI.simulate bd mv).material)) ∧
        (color = Color.b →
          (∀ x ∈ Rules.generate_moves bd color,
            (SimpleAI.simulate bd mv).material ≤ (SimpleAI.simulate bd x).material) ∧
          (∀ x ∈ l1,
            (SimpleAI.simulate bd mv).material < (SimpleAI.simulate bd x).material)) := by
  have htier1 := tier1_none_of_no_safe_capture bd color hq
  cases color with
  | w =>
    rcases bestStep_fold_spec (fun _ => true)
        (fun mv => (SimpleAI.simulate bd mv).material)
        (Rules.generate_moves bd Color.w) with ⟨_, hall⟩ | ⟨m, l1, l2, h1, _, h3, h4, h5⟩
    · exfalso
      obtain ⟨y, hy⟩ := List.exists_mem_of_ne_nil _ hne
      have := hall y hy
      simp at this
    · refine ⟨m, ?_,
        by rw [h3]; exact List.mem_append_right _ (List.mem_cons_self _ _),
        l1, l2, h3, ?_, by intro h; cases h⟩
      · unfold SimpleAI.choose_move
        rw [if_neg (by simpa using hne)]
        rw [htier1, eval_step_w_eq, h1]
      · intro _
        constructor
        · intro x hmem
          rw [h3] at hmem
          rcases List.mem_append.mp hmem with hl | hr
          · exact le_of_lt (h4 x hl rfl)
          · rcases List.mem_cons.mp hr with rfl | hl2
            · exact le_refl _
            · exact h5 x hl2 rfl
        · intro x hx
          exact h4 x hx rfl
  | b =>
    rcases bestStep_fold_spec (fun _ => true)
        (fun mv => -(SimpleAI.simulate bd mv).material)
        (Rules.generate_moves bd Color.b) with ⟨_, hall⟩ | ⟨m, l1, l2, h1, _, h3, h4, h5⟩
    · exfalso
      obtain ⟨y, hy⟩ := List.exists_mem_of_ne_nil _ hne
      have := hall y hy
      simp at this
    · refine ⟨m, ?_,
        by rw [h3]; exact List.mem_append_right _ (List.mem_cons_self _ _),
        l1, l2, h3, fun h => Color.noConfusion h, ?_⟩
      · unfold SimpleAI.choose_move
        rw [if_neg (by simpa using hne)]
        rw [htier1]
        have hfold := eval_fold_b_eq bd (Rules.generate_moves bd Color.b) none none
        rw [show (Option.map (fun z => -z) (none : Option Int)) = none from rfl] at hfold
        rw [hfold, h1]
      · intro _
        constructor
        · intro x hmem
          rw [h3] at hmem
          rcases List.mem_append.mp hmem with hl | hr
          · have := h4 x hl rfl
            omega
          · rcases List.mem_cons.mp hr with rfl | hl2
            · exact le_refl _
            · have := h5 x hl2 rfl
              omega
        · intro x hx
          have := h4 x hx rfl
          omega

/-! ### Heap lemmas (claims C5, C6) -/

lemma get?_set_self {α : Type} : ∀ (l : List α) (i : Nat) (a : α), i < l.length →
    (l.set i a).get? i = some a
  | [], i, _, h => absurd h (by simp)
  | _ :: _, 0, _, _ => rfl
  | _ :: xs, i+1, a, h => get?_set_self xs i a (by simpa using h)

lemma get?_set_ne {α : Type} : ∀ (l : List α) (i j : Nat) (a : α), i ≠ j →
    (l.set i a).get? j = l.get? j
  | [], _, _, _, _ => rfl
  | _ :: _, 0, 0, _, h => absurd rfl h
  | _ :: _, 0, _+1, _, _ => rfl
  | _ :: _, _+1, 0, _, _ => rfl
  | _ :: xs, i+1, j+1, a, h =>
      get?_set_ne xs i j a (fun he => h (by rw [he]))

lemma heap_read_some_lt {h : Heap} {i : Nat} {bd : Board}
    (hr : heap_read h i = some bd) : i < h.length := by
  by_contra hge
  rw [heap_read, List.get?_eq_none.mpr (by omega)] at hr
  cases hr

lemma heap_read_append_lt {h : Heap} {i : Nat} (bd : Board) (hlt : i < h.length) :
    heap_read (h ++ [bd]) i = heap_read h i := by
  unfold heap_read
  exact List.get?_append hlt

lemma heap_read_append_self (h : Heap) (bd : Board) :
    heap_read (h ++ [bd]) h.length = some bd := by
  unfold heap_read
  exact List.get?_concat_length h bd

lemma move_piece_at_read_ne (h : Heap) (j k : Nat) (mv : Move) (hne : j ≠ k) :
    heap_read (move_piece_at h j mv) k = heap_read h k := by
  unfold move_piece_at
  cases hr : heap_read h j with
  | none => rfl
  | some bdj =>
    unfold heap_write heap_read
    exact get?_set_ne _ _ _ _ hne

lemma move_piece_at_length (h : Heap) (j : Nat) (mv : Move) :
    (move_piece_at h j mv).length = h.length := by
  unfold move_piece_at
  cases hr : heap_read h j with
  | none => rfl
  | some bdj => simp [heap_write]

lemma fold_move_read_ne (j k : Nat) (hne : j ≠ k) :
    ∀ (ms : List Move) (h : Heap),
    heap_read (ms.foldl (fun hh m => move_piece_at hh j m) h) k = heap_read h k := by
  intro ms
  induction ms with
  | nil => intro h; rfl
  | cons m ms ih =>
    intro h
    rw [List.foldl_cons, ih, move_piece_at_read_ne h j k m hne]

lemma clone_eq (bd : Board) : bd.clone = bd := by
  have hcell : ∀ cell : Option Piece,
      cell.map (fun p => Piece.mk p.color p.kind) = cell := by
    intro cell; cases cell <;> rfl
  have hrow : ∀ row : List (Option Piece),
      row.map (fun cell => cell.map (fun p => Piece.mk p.color p.kind)) = row := by
    intro row
    induction row with
    | nil => rfl
    | cons c cs ih => rw [List.map_cons, ih, hcell c]
  cases bd with
  | mk g t =>
    unfold Board.clone
    simp only [Board.mk.injEq, and_true]
    induction g with
    | nil => rfl
    | cons row rows ih => rw [List.map_cons, hrow row, ih]

/-- C5: `clone` allocates a fresh board whose grid and side to move equal the
original's, and the two cells are independent: any sequence of `move_piece`
mutations of the clone leaves the original cell untouched, and mutating the
original never changes the clone cell. -/
theorem clone_independent (h : Heap) (i : Nat) (bd : Board)
    (hread : heap_read h i = some bd) :
    (heap_read (clone_alloc h i).1 (clone_alloc h i).2 = some bd.clone ∧
      bd.clone.board = bd.board ∧ bd.clone.to_move = bd.to_move) ∧
    (∀ ms : List Move,
      heap_read (ms.foldl (fun hh m => move_piece_at hh (clone_alloc h i).2 m)
        (clone_alloc h i).1) i = some bd) ∧
    (∀ ms : List Move,
      heap_read (ms.foldl (fun hh m => move_piece_at hh i m)
        (clone_alloc h i).1) (clone_alloc h i).2 = some bd.clone) := by
  have hlt : i < h.length := heap_read_some_lt hread
  have hca : clone_alloc h i = (h ++ [bd.clone], h.length) := by
    unfold clone_alloc
    rw [hread]
    rfl
  rw [hca]
  refine ⟨⟨heap_read_append_self h bd.clone, by rw [clone_eq], by rw [clone_eq]⟩, ?_, ?_⟩
  · intro ms
    rw [fold_move_read_ne h.length i (by omega) ms _,
      heap_read_append_lt bd.clone hlt]
    exact hread
  · intro ms
    rw [fold_move_read_ne i h.length (by omega) ms _]
    exact heap_read_append_self h bd.clone

lemma simulate_at_spec (h : Heap) (i : Nat) (mv : Move) (bd : Board)
    (hread : heap_read h i = some bd) :
    (∀ k, k < h.length →
      heap_read (simulate_at h i mv).1 k = heap_read h k) ∧
    heap_read (simulate_at h i mv).1 (simulate_at h i mv).2 =
      some (SimpleAI.simulate bd mv) ∧
    h.length ≤ (simulate_at h i mv).1.length := by
  have hca : clone_alloc h i = (h ++ [bd.clone], h.length) := by
    unfold clone_alloc
    rw [hread]
    rfl
  have hsim : simulate_at h i mv =
      ((h ++ [bd.clone]).set h.length (bd.clone.move_piece mv), h.length) := by
    unfold simulate_at
    rw [hca]
    show (move_piece_at (h ++ [bd.clone]) h.length mv, h.length) = _
    unfold move_piece_at
    rw [heap_read_append_self h bd.clone]
    rfl
  rw [hsim]
  refine ⟨?_, ?_, ?_⟩
  · intro k hk
    show heap_read _ k = _
    unfold heap_read
    rw [get?_set_ne _ _ _ _ (by omega)]
    exact heap_read_append_lt bd.clone hk
  · show heap_read _ h.length = _
    unfold heap_read
    rw [get?_set_self _ _ _ (by simp)]
    rfl
  · show h.length ≤ (List.set _ _ _).length
    rw [List.length_set, List.length_append]
    simp

lemma capture_fold_at (color : Color) (i : Nat) (bd : Board) :
    ∀ (l : List Move) (h : Heap) (acc : Option Move × Option Int),
    heap_read h i = some bd →
    ((l.foldl (SimpleAI.capture_step_at color i) (acc, h)).1 =
      l.foldl (SimpleAI.capture_step bd color) acc) ∧
    (∀ k, k < h.length →
      heap_read (l.foldl (SimpleAI.capture_step_at color i) (acc, h)).2 k =
        heap_read h k) ∧
    h.length ≤ (l.foldl (SimpleAI.capture_step_at color i) (acc, h)).2.length := by
  intro l
  induction l with
  | nil =>
    intro h acc hread
    exact ⟨rfl, fun k _ => rfl, le_refl _⟩
  | cons x xs ih =>
    intro h acc hread
    rw [List.foldl_cons, List.foldl_cons]
    cases hget : bd.get x.stop.1 x.stop.2 with
    | none =>
      have hstep : SimpleAI.capture_step_at color i (acc, h) x = (acc, h) := by
        unfold SimpleAI.capture_step_at
        show (match heap_read h i with
          | none => (acc, h)
          | some bd => _) = (acc, h)
        rw [hread]
        simp only [hget]
      have hpure : SimpleAI.capture_step bd color acc x = acc := by
        unfold SimpleAI.capture_step
        simp only [hget]
      rw [hstep, hpure]
      exact ih h acc hread
    | some target =>
      by_cases hc : target.color ≠ color
      · obtain ⟨hframe, hsimread, hlen⟩ := simulate_at_spec h i x bd hread
        have hstep : SimpleAI.capture_step_at color i (acc, h) x =
            (SimpleAI.capture_step bd color acc x, (simulate_at h i x).1) := by
          unfold SimpleAI.capture_step_at
          show (match heap_read h i with
            | none => (acc, h)
            | some bd => _) = _
          rw [hread]
          simp only [hget, if_pos hc]
          show (match simulate_at h i x with
            | (h2, j) => _) = _
          rw [show simulate_at h i x = ((simulate_at h i x).1, (simulate_at h i x).2)
            from rfl]
          rw [hsimread]
          unfold SimpleAI.capture_step
          simp only [hget, if_pos hc]
          by_cases hatt : Rules.is_square_attacked (SimpleAI.simulate bd x)
              x.stop.1 x.stop.2 (if color = Color.b then Color.w else Color.b) = false
          · rw [if_pos hatt, if_pos hatt]
            cases acc.2 with
            | none => rfl
            | some bv => by_cases hbv : bv < piece_values target.kind <;> simp [hbv]
          · rw [if_neg hatt, if_neg hatt]
        rw [hstep]
        have hread2 : heap_read (simulate_at h i x).1 i = some bd := by
          rw [hframe i (heap_read_some_lt hread)]
          exact hread
        obtain ⟨ha, hb, hc2⟩ := ih (simulate_at h i x).1
          (SimpleAI.capture_step bd color acc x) hread2
        refine ⟨ha, ?_, by omega⟩
        intro k hk
        rw [hb k (by omega), hframe k hk]
      · have hstep : SimpleAI.capture_step_at color i (acc, h) x = (acc, h) := by
          unfold SimpleAI.capture_step_at
          show (match heap_read h i with
            | none => (acc, h)
            | some bd => _) = (acc, h)
          rw [hread]
          simp only [hget, if_neg hc]
        have hpure : SimpleAI.capture_step bd color acc x = acc := by
          unfold SimpleAI.capture_step
          simp only [hget, if_neg hc]
        rw [hstep, hpure]
        exact ih h acc hread

lemma eval_fold_at (color : Color) (i : Nat) (bd : Board) :
    ∀ (l : List Move) (h : Heap) (acc : Option Move × Option Int),
    heap_read h i = some bd →
    ((l.foldl (SimpleAI.eval_step_at color i) (acc, h)).1 =
      l.foldl (SimpleAI.eval_step bd color) acc) ∧
    (∀ k, k < h.length →
      heap_read (l.foldl (SimpleAI.eval_step_at color i) (acc, h)).2 k =
        heap_read h k) ∧
    h.length ≤ (l.foldl (SimpleAI.eval_step_at color i) (acc, h)).2.length := by
  intro l
  induction l with
  | nil =>
    intro h acc hread
    exact ⟨rfl, fun k _ => rfl, le_refl _⟩
  | cons x xs ih =>
    intro h acc hread
    rw [List.foldl_cons, List.foldl_cons]
    obtain ⟨hframe, hsimread, hlen⟩ := simulate_at_spec h i x bd hread
    have hstep : SimpleAI.eval_step_at color i (acc, h) x =
        (SimpleAI.eval_step bd color acc x, (simulate_at h i x).1) := by
      unfold SimpleAI.eval_step_at SimpleAI.eval_step
      simp only []
      rw [hsimread]
      cases color with
      | w =>
        cases acc.2 with
        | none => rfl
        | some bv =>
            by_cases hbv : bv < (SimpleAI.simulate bd x).material <;> simp [hbv]
      | b =>
        cases acc.2 with
        | none => rfl
        | some bv =>
            by_cases hbv : (SimpleAI.simulate bd x).material < bv <;> simp [hbv]
    rw [hstep]
    have hread2 : heap_read (simulate_at h i x).1 i = some bd := by
      rw [hframe i (heap_read_some_lt hread)]
      exact hread
    obtain ⟨ha, hb, hc2⟩ := ih (simulate_at h i x).1
      (SimpleAI.eval_step bd color acc x) hread2
    refine ⟨ha, ?_, by omega⟩
    intro k hk
    rw [hb k (by omega), hframe k hk]

lemma choose_move_none_iff (bd : Board) (color : Color) :
    SimpleAI.choose_move color bd = none ↔ Rules.generate_moves bd color = [] := by
  constructor
  · intro h
    by_contra hne
    unfold SimpleAI.choose_move at h
    rw [if_neg (by simpa using hne)] at h
    cases h1 : ((Rules.generate_moves bd color).foldl
        (SimpleAI.capture_step bd color) (none, none)).1 with
    | some m => rw [h1] at h; cases h
    | none =>
      rw [h1] at h
      cases h2 : ((Rules.generate_moves bd color).foldl
          (SimpleAI.eval_step bd color) (none, none)).1 with
      | some m => rw [h2] at h; cases h
      | none =>
        rw [h2] at h
        cases hl : Rules.generate_moves bd color with
        | nil => exact hne hl
        | cons y ys => rw [hl] at h; cases h
  · intro h
    unfold SimpleAI.choose_move
    rw [if_pos (by simp [h])]

lemma choose_move_mem (bd : Board) (color : Color) (mv : Move)
    (h : SimpleAI.choose_move color bd = some mv) :
    mv ∈ Rules.generate_moves bd color := by
  unfold SimpleAI.choose_move at h
  by_cases hne : (Rules.generate_moves bd color).isEmpty
  · rw [if_pos hne] at h; cases h
  · rw [if_neg hne] at h
    cases h1 : ((Rules.generate_moves bd color).foldl
        (SimpleAI.capture_step bd color) (none, none)).1 with
    | some m =>
      rw [h1] at h
      have hm : m = mv := by
        have := h
        simp only [] at this
        exact Option.some.inj this
      subst hm
      rw [capture_step_eq] at h1
      rcases bestStep_fold_spec (safe_capture bd color) (captured_value bd)
          (Rules.generate_moves bd color) with ⟨hn, _⟩ | ⟨m', _, _, hsome, _, hsplit, _, _⟩
      · rw [hn] at h1; cases h1
      · rw [hsome] at h1
        rw [hsplit]
        have : m' = m := Option.some.inj h1
        subst this
        exact List.mem_append_right _ (List.mem_cons_self _ _)
    | none =>
      rw [h1] at h
      cases h2 : ((Rules.generate_moves bd color).foldl
          (SimpleAI.eval_step bd color) (none, none)).1 with
      | some m =>
        rw [h2] at h
        have hm : m = mv := Option.some.inj h
        subst hm
        cases color with
        | w =>
          rw [eval_step_w_eq] at h2
          rcases bestStep_fold_spec (fun _ => true)
              (fun mv => (SimpleAI.simulate bd mv).material)
              (Rules.generate_moves bd Color.w) with ⟨hn, _⟩ | ⟨m', _, _, hsome, _, hsplit, _, _⟩
          · rw [hn] at h2; cases h2
          · rw [hsome] at h2
            rw [hsplit]
            have : m' = m := Option.some.inj h2
            subst this
            exact List.mem_append_right _ (List.mem_cons_self _ _)
        | b =>
          rw [eval_fold_b_eq bd _ none none] at h2
          rcases bestStep_fold_spec (fun _ => true)
              (fun mv => -(SimpleAI.simulate bd mv).material)
              (Rules.generate_moves bd Color.b) with ⟨hn, _⟩ | ⟨m', _, _, hsome, _, hsplit, _, _⟩
          · rw [show (Option.map (fun z : Int => -z) none) = (none : Option Int)
              from rfl] at h2
            rw [hn] at h2; cases h2
          · rw [show (Option.map (fun z : Int => -z) none) = (none : Option Int)
              from rfl] at h2
            rw [hsome] at h2
            rw [hsplit]
            have : m' = m := Option.some.inj h2
            subst this
            exact List.mem_append_right _ (List.mem_cons_self _ _)
      | none =>
        rw [h2] at h
        cases hl : Rules.generate_moves bd color with
        | nil => rw [hl] at h; cases h
        | cons y ys =>
          rw [hl] at h
          have : y = mv := Option.some.inj h
          subst this
          exact List.mem_cons_self _ _

/-- C6: with the game board in heap cell `i`, `choose_move` returns `None`
exactly when the generated move list is empty, any move it returns is one of
the generated moves, and every pre-existing heap cell — in particular the
input board — is unchanged by the call (only fresh simulation clones are
allocated and mutated). -/
theorem choose_move_at_spec (h : Heap) (i : Nat) (bd : Board) (color : Color)
    (hread : heap_read h i = some bd) :
    ((SimpleAI.choose_move_at color h i).1 = SimpleAI.choose_move color bd) ∧
    ((SimpleAI.choose_move_at color h i).1 = none ↔
      Rules.generate_moves bd color = []) ∧
    (∀ mv, (SimpleAI.choose_move_at color h i).1 = some mv →
      mv ∈ Rules.generate_moves bd color) ∧
    (∀ k, k < h.length →
      heap_read (SimpleAI.choose_move_at color h i).2 k = heap_read h k) := by
  have hmain :
      (SimpleAI.choose_move_at color h i).1 = SimpleAI.choose_move color bd ∧
      (∀ k, k < h.length →
        heap_read (SimpleAI.choose_move_at color h i).2 k = heap_read h k) := by
    by_cases hemp : (Rules.generate_moves bd color).isEmpty
    · have heq : SimpleAI.choose_move_at color h i = (none, h) := by
        unfold SimpleAI.choose_move_at
        rw [hread]
        simp only [if_pos hemp]
      have heqp : SimpleAI.choose_move color bd = none := by
        unfold SimpleAI.choose_move
        rw [if_pos hemp]
      rw [heq, heqp]
      exact ⟨rfl, fun k _ => rfl⟩
    · obtain ⟨ht1a, ht1f, ht1l⟩ :=
        capture_fold_at color i bd (Rules.generate_moves bd color) h
          (none, none) hread
      have hread1 : heap_read ((Rules.generate_moves bd color).foldl
          (SimpleAI.capture_step_at color i) ((none, none), h)).2 i = some bd := by
        rw [ht1f i (heap_read_some_lt hread)]
        exact hread
      obtain ⟨ht2a, ht2f, ht2l⟩ :=
        eval_fold_at color i bd (Rules.generate_moves bd color)
          ((Rules.generate_moves bd color).foldl
            (SimpleAI.capture_step_at color i) ((none, none), h)).2
          (none, none) hread1
      cases hc1 : ((Rules.generate_moves bd color).foldl
          (SimpleAI.capture_step_at color i) ((none, none), h)).1.1 with
      | some mv =>
        have heq : SimpleAI.choose_move_at color h i = (some mv,
            ((Rules.generate_moves bd color).foldl
              (SimpleAI.capture_step_at color i) ((none, none), h)).2) := by
          unfold SimpleAI.choose_move_at
          rw [hread]
          simp only [if_neg hemp]
          rw [hc1]
        have heqp : SimpleAI.choose_move color bd = some mv := by
          unfold SimpleAI.choose_move
          rw [if_neg hemp, ← ht1a, hc1]
        rw [heq, heqp]
        exact ⟨rfl, fun k hk => ht1f k hk⟩
      | none =>
        cases hc2 : (((Rules.generate_moves bd color).foldl
            (SimpleAI.eval_step_at color i) ((none, none),
              ((Rules.generate_moves bd color).foldl
                (SimpleAI.capture_step_at color i) ((none, none), h)).2))).1.1 with
        | some mv =>
          have heq : SimpleAI.choose_move_at color h i = (some mv,
              (((Rules.generate_moves bd color).foldl
                (SimpleAI.eval_step_at color i) ((none, none),
                  ((Rules.generate_moves bd color).foldl
                    (SimpleAI.capture_step_at color i) ((none, none), h)).2))).2) := by
            unfold SimpleAI.choose_move_at
            rw [hread]
            simp only [if_neg hemp]
            rw [hc1, hc2]
          have heqp : SimpleAI.choose_move color bd = some mv := by
            unfold SimpleAI.choose_move
            rw [if_neg hemp, ← ht1a, hc1, ← ht2a, hc2]
          rw [heq, heqp]
          refine ⟨rfl, ?_⟩
          intro k hk
          rw [ht2f k (lt_of_lt_of_le hk ht1l), ht1f k hk]
        | none =>
          have heq : SimpleAI.choose_move_at color h i =
              ((Rules.generate_moves bd color).head?,
              (((Rules.generate_moves bd color).foldl
                (SimpleAI.eval_step_at color i) ((none, none),
                  ((Rules.generate_moves bd color).foldl
                    (SimpleAI.capture_step_at color i) ((none, none), h)).2))).2) := by
            unfold SimpleAI.choose_move_at
            rw [hread]
            simp only [if_neg hemp]
            rw [hc1, hc2]
          have heqp : SimpleAI.choose_move color bd =
              (Rules.generate_moves bd color).head? := by
            unfold SimpleAI.choose_move
            rw [if_neg hemp, ← ht1a, hc1, ← ht2a, hc2]
          rw [heq, heqp]
          refine ⟨rfl, ?_⟩
          intro k hk
          rw [ht2f k (lt_of_lt_of_le hk ht1l), ht1f k hk]
  obtain ⟨hm, hf⟩ := hmain
  refine ⟨hm, ?_, ?_, hf⟩
  · rw [hm]
    exact choose_move_none_iff bd color
  · intro mv hmv
    rw [hm] at hmv
    exact choose_move_mem bd color mv hmv

/-! ### Instance checks -/

theorem generate_moves_sound_witness :
    inBounds (6 : Int) 0 = true ∧ inBounds (5 : Int) 0 = true ∧
    (∃ p, Board.initial.get 6 0 = some p ∧ p.color = Color.w) ∧
    (Board.initial.get 5 0 = none ∨
      ∃ q, Board.initial.get 5 0 = some q ∧
        q.color = (if Color.w = Color.w then Color.b else Color.w)) :=
  generate_moves_sound Board.initial Color.w ⟨(6, 0), (5, 0), none⟩ (by decide)

theorem generate_moves_promotion_witness :
    ((((⟨(1, 3), (0, 3), some Kind.Q⟩ : Move)).promotion ≠ none) ↔
      ((∃ p, pawnPromoBoard.get 1 3 = some p ∧ p.kind = Kind.P) ∧
        (0 : Int) = (if Color.w = Color.w then 0 else 7))) ∧
    ((⟨(1, 3), (0, 3), some Kind.Q⟩ : Move).promotion = none ∨
      (⟨(1, 3), (0, 3), some Kind.Q⟩ : Move).promotion = some Kind.Q) :=
  generate_moves_promotion pawnPromoBoard Color.w
    ⟨(1, 3), (0, 3), some Kind.Q⟩ (by decide)

theorem move_piece_spec_witness :
    (Board.initial.move_piece ⟨(6, 4), (4, 4), none⟩).get 6 4 = none ∧
    (Board.initial.move_piece ⟨(6, 4), (4, 4), none⟩).get 4 4 =
      placed_piece Board.initial ⟨(6, 4), (4, 4), none⟩ ∧
    (Board.initial.move_piece ⟨(6, 4), (4, 4), none⟩).to_move =
      (if Board.initial.to_move = Color.w then Color.b else Color.w) ∧
    (Board.initial.move_piece ⟨(6, 4), (4, 4), none⟩).get 0 0 =
      Board.initial.get 0 0 := by
  obtain ⟨h1, h2, h3, h4⟩ :=
    move_piece_spec Board.initial ⟨(6, 4), (4, 4), none⟩
      (by decide) (by decide) (by decide)
  exact ⟨h1 (by decide), h2, h3, h4 0 0 (by decide) (by decide) (by decide)⟩

theorem choose_move_safe_capture_witness :
    ∃ mv, SimpleAI.choose_move Color.w rookCaptureBoard = some mv ∧
      safe_capture rookCaptureBoard Color.w mv = true ∧
      mv ∈ Rules.generate_moves rookCaptureBoard Color.w ∧
      (∀ mv' ∈ Rules.generate_moves rookCaptureBoard Color.w,
        safe_capture rookCaptureBoard Color.w mv' = true →
        captured_value rookCaptureBoard mv' ≤ captured_value rookCaptureBoard mv) ∧
      ∃ l1 l2, Rules.generate_moves rookCaptureBoard Color.w = l1 ++ mv :: l2 ∧
        ∀ mv' ∈ l1, safe_capture rookCaptureBoard Color.w mv' = true →
          captured_value rookCaptureBoard mv' < captured_value rookCaptureBoard mv :=
  choose_move_safe_capture rookCaptureBoard Color.w (by decide)

theorem choose_move_material_tier_witness :
    ∃ mv, SimpleAI.choose_move Color.w loneRookBoard = some mv ∧
      mv ∈ Rules.generate_moves loneRookBoard Color.w ∧
      ∃ l1 l2, Rules.generate_moves loneRookBoard Color.w = l1 ++ mv :: l2 ∧
        (Color.w = Color.w →
          (∀ x ∈ Rules.generate_moves loneRookBoard Color.w,
            (SimpleAI.simulate loneRookBoard x).material ≤
              (SimpleAI.simulate loneRookBoard mv).material) ∧
          (∀ x ∈ l1,
            (SimpleAI.simulate loneRookBoard x).material <
              (SimpleAI.simulate loneRookBoard mv).material)) ∧
        (Color.w = Color.b →
          (∀ x ∈ Rules.generate_moves loneRookBoard Color.w,
            (SimpleAI.simulate loneRookBoard mv).material ≤
              (SimpleAI.simulate loneRookBoard x).material) ∧
          (∀ x ∈ l1,
            (SimpleAI.simulate loneRookBoard mv).material <
              (SimpleAI.simulate loneRookBoard x).material)) :=
  choose_move_material_tier loneRookBoard Color.w (by decide) (by decide)

theorem clone_independent_witness :
    heap_read (clone_alloc [Board.initial] 0).1 (clone_alloc [Board.initial] 0).2 =
      some Board.initial.clone ∧
    heap_read (([⟨(6, 4), (4, 4), none⟩] : List Move).foldl
      (fun hh m => move_piece_at hh (clone_alloc [Board.initial] 0).2 m)
      (clone_alloc [Board.initial] 0).1) 0 = some Board.initial ∧
    heap_read (([⟨(6, 4), (4, 4), none⟩] : List Move).foldl
      (fun hh m => move_piece_at hh 0 m)
      (clone_alloc [Board.initial] 0).1) (clone_alloc [Board.initial] 0).2 =
      some Board.initial.clone := by
  obtain ⟨⟨ha, _, _⟩, hb, hc⟩ :=
    clone_independent [Board.initial] 0 Board.initial rfl
  exact ⟨ha, hb [⟨(6, 4), (4, 4), none⟩], hc [⟨(6, 4), (4, 4), none⟩]⟩

theorem choose_move_at_spec_witness :
    ((SimpleAI.choose_move_at Color.w [rookCaptureBoard] 0).1 =
      SimpleAI.choose_move Color.w rookCaptureBoard) ∧
    ((SimpleAI.choose_move_at Color.w [rookCaptureBoard] 0).1 = none ↔
      Rules.generate_moves rookCaptureBoard Color.w = []) ∧
    heap_read (SimpleAI.choose_move_at Color.w [rookCaptureBoard] 0).2 0 =
      heap_read [rookCaptureBoard] 0 := by
  obtain ⟨h1, h2, h3, h4⟩ :=
    choose_move_at_spec [rookCaptureBoard] 0 rookCaptureBoard Color.w rfl
  exact ⟨h1, h2, h4 0 (by decide)⟩

theorem slider_attack_char_witness :
    (Rules.piece_attacks loneRookBoard 0 0 ⟨Color.w, Kind.R⟩ 0 5 = true ↔
      ∃ d ∈ slider_dirs Kind.R, ray_reaches loneRookBoard 0 0 d 0 5) ∧
    (Rules.piece_attacks loneRookBoard 0 0 ⟨Color.w, Kind.R⟩ 0 5 = true →
      Rules.is_square_attacked loneRookBoard 0 5 Color.w = true) :=
  slider_attack_char loneRookBoard 0 5 0 0 ⟨Color.w, Kind.R⟩
    (by decide) (by decide) (Or.inr (Or.inl rfl))

theorem pawn_attack_char_witness :
    (Rules.piece_attacks Board.initial 6 0 ⟨Color.w, Kind.P⟩ 5 1 = true ↔
      (5 = (6 : Int) + pawn_dir Color.w ∧ ((1 : Int) = 0 - 1 ∨ (1 : Int) = 0 + 1))) ∧
    (Rules.piece_attacks Board.initial 6 0 ⟨Color.w, Kind.P⟩ 5 1 = true →
      Rules.is_square_attacked Board.initial 5 1 Color.w = true) :=
  pawn_attack_char Board.initial 5 1 6 0 ⟨Color.w, Kind.P⟩
    (by decide) (by decide) rfl
